import Mathlib

/-!
# Verification of `path_finding_algorithms.py`

A shallow embedding of the graph-search framework in
`src/path_finding_algorithms.py` (the `Problem` abstraction, search-tree
`Node`s, the three graph-search algorithms, the weighted `Graph` container,
`GraphProblem`, and the text-file graph loader), together with theorems
checking the natural-language specification against this embedding.

Conventions of the embedding:
* Python machine integers are `Int`; `np.inf`-bearing costs are `WithTop Int`.
* Python `dict`s are insertion-ordered association lists; Python `set`s of
  states are `Finset`s (only their membership and cardinality are observed).
* Fallible operations (which may raise in Python) return `Option`.
* The unbounded `while frontier:` loops are driven by explicit fuel; the
  outcome `outOfFuel` marks exhaustion and never corresponds to a Python
  return value.
-/

namespace PathFinding

/-- Search-tree node, embedding class `Node`: a state, an optional parent
link (`orphan` = `parent is None`, `child` = parent present), the action
that produced the node (absent for the root), the accumulated path cost,
and the stored depth (set by `Node.__init__`).  The `Option` parent field
of the Python class is flattened into the two constructors. -/
inductive SNode (σ α κ : Type) : Type where
  | orphan : σ → Option α → κ → Nat → SNode σ α κ
  | child : σ → SNode σ α κ → Option α → κ → Nat → SNode σ α κ
deriving DecidableEq

namespace SNode

variable {σ α κ : Type}

/-- The `state` attribute. -/
def state : SNode σ α κ → σ
  | .orphan s _ _ _ => s
  | .child s _ _ _ _ => s

/-- The `parent` attribute (as the Python `Optional[Node]`). -/
def parent : SNode σ α κ → Option (SNode σ α κ)
  | .orphan _ _ _ _ => none
  | .child _ p _ _ _ => some p

/-- The `action` attribute. -/
def action : SNode σ α κ → Option α
  | .orphan _ a _ _ => a
  | .child _ _ a _ _ => a

/-- The `path_cost` attribute. -/
def path_cost : SNode σ α κ → κ
  | .orphan _ _ c _ => c
  | .child _ _ _ c _ => c

/-- The stored `depth` attribute. -/
def depth : SNode σ α κ → Nat
  | .orphan _ _ _ d => d
  | .child _ _ _ _ d => d

/-- `Node.__init__`: stores the fields and sets
`depth = parent.depth + 1` when a parent is present, else `0`. -/
def new (s : σ) (p : Option (SNode σ α κ)) (a : Option α) (c : κ) :
    SNode σ α κ :=
  match p with
  | none => .orphan s a c 0
  | some par => .child s par a c (par.depth + 1)

/-- The parent-walking loop of `Node.path`: collects `self` and its
ancestors, nearest first. -/
def pathBack : SNode σ α κ → List (SNode σ α κ)
  | .orphan s a c d => [.orphan s a c d]
  | .child s p a c d => .child s p a c d :: pathBack p

/-- `Node.path`: the list of nodes from the root to `self`. -/
def path (n : SNode σ α κ) : List (SNode σ α κ) :=
  n.pathBack.reverse

/-- `Node.solution`: the actions along `path()` with the root omitted. -/
def solution (n : SNode σ α κ) : List (Option α) :=
  (n.path.drop 1).map action

end SNode

/-- The `Problem` capability interface: the record of operations every
search algorithm consumes (a `Problem` subclass instance). -/
structure SProblem (σ α κ : Type) where
  initial : σ
  actions : σ → List α
  result : σ → α → σ
  goal_test : σ → Bool
  path_cost : κ → σ → α → σ → κ

namespace SNode

variable {σ α κ : Type}

/-- `Node.child_node`: builds the child reached by `action`. -/
def child_node (p : SProblem σ α κ) (n : SNode σ α κ) (a : α) :
    SNode σ α κ :=
  let next_state := p.result n.state a
  SNode.new next_state (some n) (some a)
    (p.path_cost n.path_cost n.state a next_state)

/-- `Node.expand`: the children of `n`, one per applicable action. -/
def expand (p : SProblem σ α κ) (n : SNode σ α κ) : List (SNode σ α κ) :=
  (p.actions n.state).map (child_node p n)

end SNode

/-- The root node `Node(problem.initial)` with the Python default
`path_cost=0`. -/
def rootNode {σ α κ : Type} [Zero κ] (p : SProblem σ α κ) : SNode σ α κ :=
  SNode.new p.initial none none 0

/-- Return value of a search function.  `found n k` is the Python
`return node, len(explored)`; `failure k` is the bare `return len(explored)`
on frontier exhaustion; `foundInit n` is the bare `return node` that
`breadth_first_graph_search` performs when the initial state passes the
goal test; `outOfFuel` marks fuel exhaustion of the embedding (no Python
counterpart). -/
inductive Outcome (σ α κ : Type) : Type where
  | found : SNode σ α κ → Nat → Outcome σ α κ
  | failure : Nat → Outcome σ α κ
  | foundInit : SNode σ α κ → Outcome σ α κ
  | outOfFuel : Outcome σ α κ
deriving DecidableEq

/-- One loop iteration either returns from the function (`done`) or
continues with a new frontier/explored pair (`next`). -/
inductive StepRes (σ α κ : Type) : Type where
  | done : Outcome σ α κ → StepRes σ α κ
  | next : List (SNode σ α κ) × Finset σ → StepRes σ α κ

variable {σ α κ ν : Type}

/-- Drive a loop body for at most `fuel` iterations (the embedding of the
unbounded `while frontier:` loop). -/
def iterate (step : List (SNode σ α κ) × Finset σ → StepRes σ α κ) :
    Nat → List (SNode σ α κ) × Finset σ → Outcome σ α κ
  | 0, _ => .outOfFuel
  | fuel + 1, cfg =>
    match step cfg with
    | .done r => r
    | .next cfg' => iterate step fuel cfg'

/-- The configuration reached after `k` completed loop iterations, or
`none` if the loop has returned within the first `k` iterations. -/
def iterCfg (step : List (SNode σ α κ) × Finset σ → StepRes σ α κ) :
    Nat → List (SNode σ α κ) × Finset σ →
    Option (List (SNode σ α κ) × Finset σ)
  | 0, cfg => some cfg
  | k + 1, cfg =>
    match step cfg with
    | .done _ => none
    | .next cfg' => iterCfg step k cfg'

/-- Frontier membership test `child in frontier`: `Node.__eq__` compares
states, so this holds iff some frontier entry carries the state `s`. -/
def containsState [DecidableEq σ] (fr : List (SNode σ α κ)) (s : σ) : Bool :=
  fr.any fun m => decide (m.state = s)

/-- The generator feeding `frontier.extend(...)` in
`depth_first_graph_search`: children are appended one at a time, each
guarded by `child.state not in explored and child not in frontier`, where
the frontier already contains the children appended so far. -/
def dfsExtend [DecidableEq σ] (ex : Finset σ) :
    List (SNode σ α κ) → List (SNode σ α κ) → List (SNode σ α κ)
  | [], fr => fr
  | c :: cs, fr =>
    dfsExtend ex cs
      (if c.state ∉ ex ∧ containsState fr c.state = false then fr ++ [c]
       else fr)

/-- One iteration of the `depth_first_graph_search` loop: pop the top of
the stack (the list's last element), goal-test it, mark it explored, and
extend the frontier with the admissible children. -/
def dfsStep [DecidableEq σ] (p : SProblem σ α κ) :
    List (SNode σ α κ) × Finset σ → StepRes σ α κ
  | (fr, ex) =>
    match fr.getLast? with
    | none => .done (.failure ex.card)
    | some node =>
      if p.goal_test node.state then .done (.found node ex.card)
      else
        let ex' := insert node.state ex
        .next (dfsExtend ex' (node.expand p) fr.dropLast, ex')

/-- `depth_first_graph_search`. -/
def depth_first_graph_search [DecidableEq σ] [Zero κ] (p : SProblem σ α κ)
    (fuel : Nat) : Outcome σ α κ :=
  iterate (dfsStep p) fuel ([rootNode p], ∅)

/-- The `for child in node.expand(problem)` loop of
`breadth_first_graph_search`: a new child is goal-tested before being
appended at the queue's tail, and a goal child is returned immediately
together with the current explored count. -/
def bfsChildren [DecidableEq σ] (p : SProblem σ α κ) :
    List (SNode σ α κ) → List (SNode σ α κ) → Finset σ → StepRes σ α κ
  | [], fr, ex => .next (fr, ex)
  | c :: cs, fr, ex =>
    if c.state ∉ ex ∧ containsState fr c.state = false then
      if p.goal_test c.state then .done (.found c ex.card)
      else bfsChildren p cs (fr ++ [c]) ex
    else bfsChildren p cs fr ex

/-- One iteration of the `breadth_first_graph_search` loop: pop the head
of the FIFO queue, mark it explored, then run the child loop (there is no
pop-time goal test in this function). -/
def bfsStep [DecidableEq σ] (p : SProblem σ α κ) :
    List (SNode σ α κ) × Finset σ → StepRes σ α κ
  | ([], ex) => .done (.failure ex.card)
  | (node :: rest, ex) =>
    bfsChildren p (node.expand p) rest (insert node.state ex)

/-- `breadth_first_graph_search`: goal-tests the root before the loop and
returns the bare node (no explored count) in that case. -/
def breadth_first_graph_search [DecidableEq σ] [Zero κ] (p : SProblem σ α κ)
    (fuel : Nat) : Outcome σ α κ :=
  let node := rootNode p
  if p.goal_test node.state then .foundInit node
  else iterate (bfsStep p) fuel ([node], ∅)

/-- `memoize(f, 'f')` caches `f` on each node; for the pure `f` of this
embedding caching is semantically the identity. -/
def memoize (f : SNode σ α κ → ν) : SNode σ α κ → ν := f

/-- The entry of a min-priority queue that `pop` removes: the minimum of
the heap key `(f(node), node)`, where `Node.__lt__` compares states
(modelled from the spec: the priority queue pops a minimum-`f` entry, ties
broken by the node ordering, which is state-based). -/
def pqMin [LinearOrder ν] [LinearOrder σ] (f : SNode σ α κ → ν)
    (n : SNode σ α κ) (ns : List (SNode σ α κ)) : SNode σ α κ :=
  ns.foldl
    (fun b m =>
      if f m < f b ∨ (f m = f b ∧ m.state < b.state) then m else b) n

/-- `PriorityQueue.pop` (modelled from the spec: removes and returns the
minimum-`f` entry): selects the minimal-key entry and removes its first
occurrence from the queue. -/
def popMin [LinearOrder ν] [LinearOrder σ] (f : SNode σ α κ → ν)
    (l : List (SNode σ α κ)) :
    Option (SNode σ α κ × List (SNode σ α κ)) :=
  match l with
  | [] => none
  | n :: ns =>
    let m := pqMin f n ns
    some (m, l.eraseP fun x => decide (f x = f m ∧ x.state = m.state))

/-- `frontier[child]` (modelled from the spec: lookup of the current
`f`-value of the queued entry whose state matches): the cached key of the
first entry with the child's state. -/
def pqLookup [DecidableEq σ] (f : SNode σ α κ → ν)
    (fr : List (SNode σ α κ)) (c : SNode σ α κ) : Option ν :=
  (fr.find? fun x => decide (x.state = c.state)).map f

/-- `del frontier[child]` (modelled from the spec: removes the queued
entry whose state matches the child's). -/
def pqErase [DecidableEq σ] (fr : List (SNode σ α κ)) (c : SNode σ α κ) :
    List (SNode σ α κ) :=
  fr.eraseP fun x => decide (x.state = c.state)

/-- The child-handling branch of `best_first_graph_search`:
enqueue a child whose state is in neither `explored` nor the frontier;
otherwise, if its state is in the frontier, replace the queued entry
exactly when the child's `f`-value is strictly smaller; otherwise drop
the child. -/
def bestHandleChild [DecidableEq σ] [LinearOrder ν] (f : SNode σ α κ → ν)
    (ex : Finset σ) (fr : List (SNode σ α κ)) (c : SNode σ α κ) :
    List (SNode σ α κ) :=
  if c.state ∉ ex ∧ containsState fr c.state = false then fr ++ [c]
  else if containsState fr c.state = true then
    match pqLookup f fr c with
    | some v => if f c < v then pqErase fr c ++ [c] else fr
    | none => fr
  else fr

/-- One iteration of the `best_first_graph_search` loop: pop the
minimum-`f` node, goal-test it, mark it explored, and fold the
child-handling branch over the expansion. -/
def bestStep [DecidableEq σ] [LinearOrder ν] [LinearOrder σ]
    (p : SProblem σ α κ) (f : SNode σ α κ → ν) :
    List (SNode σ α κ) × Finset σ → StepRes σ α κ
  | (fr, ex) =>
    match popMin f fr with
    | none => .done (.failure ex.card)
    | some (node, rest) =>
      if p.goal_test node.state then .done (.found node ex.card)
      else
        let ex' := insert node.state ex
        .next ((node.expand p).foldl (bestHandleChild f ex') rest, ex')

/-- `best_first_graph_search` (the `display` flag only prints and is not
modelled). -/
def best_first_graph_search [DecidableEq σ] [LinearOrder ν] [LinearOrder σ]
    [Zero κ] (p : SProblem σ α κ) (f : SNode σ α κ → ν) (fuel : Nat) :
    Outcome σ α κ :=
  let f := memoize f
  iterate (bestStep p f) fuel ([rootNode p], ∅)

/-! ## Association-list model of Python `dict` (insertion-ordered) -/

/-- First-match lookup, `d[k]` / `d.get(k)`. -/
def alook [DecidableEq ν] (l : List (ν × β)) (a : ν) : Option β :=
  (l.find? fun x => decide (x.1 = a)).map Prod.snd

/-- `d[k] = v`: replace the value at an existing key in place, else append
the binding (Python dicts keep insertion order and update in place). -/
def aset [DecidableEq ν] (l : List (ν × β)) (a : ν) (b : β) :
    List (ν × β) :=
  match l with
  | [] => [(a, b)]
  | x :: xs => if x.1 = a then (a, b) :: xs else x :: aset xs a b

/-- `d.setdefault(k, v)`: the stored (or newly inserted) value together
with the updated dict. -/
def asetd [DecidableEq ν] (l : List (ν × β)) (a : ν) (b : β) :
    β × List (ν × β) :=
  match alook l a with
  | some v => (v, l)
  | none => (b, l ++ [(a, b)])

/-- The `Graph` class: an adjacency dict from node-id to a dict of
`(neighbour, weight)` entries, the `directed` flag, and the `locations`
attribute, which does not exist (`none`) until the loader assigns it. -/
structure Graph (ν : Type) : Type where
  graph_dict : List (ν × List (ν × Int))
  directed : Bool := true
  locations : Option (List (ν × (Int × Int))) := none
deriving DecidableEq

namespace Graph

variable {ν : Type} [DecidableEq ν]

/-- The value of `Graph.get(a)` (a dict of `{node: distance}`, possibly
empty).  The Python method also mutates `graph_dict` through
`setdefault`; `getS` below models that effect. -/
def get (g : Graph ν) (a : ν) : List (ν × Int) :=
  (alook g.graph_dict a).getD []

/-- The value of `Graph.get(a, b)` (the edge weight or `None`). -/
def get₂ (g : Graph ν) (a b : ν) : Option Int :=
  alook (g.get a) b

/-- `Graph.get(a)` with its side effect: `setdefault` inserts an empty
entry for a missing key. -/
def getS (g : Graph ν) (a : ν) : List (ν × Int) × Graph ν :=
  let (links, d) := asetd g.graph_dict a []
  (links, { g with graph_dict := d })

/-- `Graph.get(a, b)` with its side effect. -/
def getS₂ (g : Graph ν) (a b : ν) : Option Int × Graph ν :=
  let (links, g') := g.getS a
  (alook links b, g')

/-- `Graph.connect1(A, B, distance)`:
`self.graph_dict.setdefault(A, {})[B] = distance`. -/
def connect1 (g : Graph ν) (A B : ν) (distance : Int) : Graph ν :=
  { g with graph_dict :=
      match alook g.graph_dict A with
      | some links => aset g.graph_dict A (aset links B distance)
      | none => g.graph_dict ++ [(A, [(B, distance)])] }

/-- `a` is the source of some edge of `g`. -/
def IsSource (g : Graph ν) (a : ν) : Prop :=
  ∃ l, alook g.graph_dict a = some l ∧ l ≠ []

/-- `g` has an edge from `a` to `b`. -/
def HasEdge (g : Graph ν) (a b : ν) : Prop :=
  ∃ l w, alook g.graph_dict a = some l ∧ alook l b = some w

end Graph

/-- Python `x or np.inf` applied to an edge-weight lookup: `None` and the
integer `0` are falsy, so a missing edge *and a 0-weight edge* both
contribute the infinite cost. -/
def orInf (v : Option Int) : WithTop Int :=
  match v with
  | some w => if w = 0 then ⊤ else (w : WithTop Int)
  | none => ⊤

/-- The dynamically-typed `goal` attribute: a single goal state or a
Python list of goal states. -/
inductive GoalSpec (ν : Type) : Type where
  | one : ν → GoalSpec ν
  | many : List ν → GoalSpec ν
deriving DecidableEq

/-- The `GraphProblem` class. -/
structure GraphProblem (ν : Type) : Type where
  initial : ν
  goal : GoalSpec ν
  graph : Graph ν
deriving DecidableEq

namespace GraphProblem

variable {ν : Type} [DecidableEq ν]

/-- The inherited `Problem.goal_test`: membership when `goal` is a list
(`is_in` compares by identity-or-equality, i.e. equality here), equality
otherwise. -/
def goal_test (p : GraphProblem ν) (s : ν) : Bool :=
  match p.goal with
  | .many gs => gs.any fun g => decide (s = g)
  | .one g => decide (s = g)

/-- `GraphProblem.path_cost`:
`cost_so_far + (self.graph.get(A, B) or np.inf)`. -/
def path_cost (p : GraphProblem ν) (cost_so_far : WithTop Int) (A : ν)
    (_action : ν) (B : ν) : WithTop Int :=
  cost_so_far + orInf (p.graph.get₂ A B)

/-- `int(distance(a, b))` for integer coordinates (modelled from the
spec: `distance` is missing from the sources; the spec fixes it as the
straight-line Euclidean distance, and `int` truncation of the nonnegative
float square root is the floor, i.e. `Nat.sqrt` of the squared norm). -/
def sld (a b : Int × Int) : WithTop Int :=
  ((Nat.sqrt (((a.1 - b.1) ^ 2 + (a.2 - b.2) ^ 2).toNat) : Int) :
    WithTop Int)

/-- `GraphProblem.h`: `some` is a returned value (`some ⊤` is the
`return np.inf` taken when the `locations` attribute is absent or the
dict is empty, both falsy); `none` is an uncaught `KeyError`/`ValueError`
(missing coordinates, or `min` over an empty goal list). -/
def h (p : GraphProblem ν) (node : SNode ν ν (WithTop Int)) :
    Option (WithTop Int) :=
  match p.graph.locations with
  | none => some ⊤
  | some locs =>
    if locs = [] then some ⊤
    else
      match p.goal with
      | .many gs =>
        match alook locs node.state with
        | none => none
        | some a =>
          match gs.mapM fun g => (alook locs g).map fun b => sld a b with
          | none => none
          | some [] => none
          | some (d :: ds) => some (ds.foldl min d)
      | .one g =>
        match alook locs node.state, alook locs g with
        | some a, some b => some (sld a b)
        | _, _ => none

/-- The `Problem` interface of a `GraphProblem` (with the observable
value of the mutating `Graph.get`; the mutation itself is covered by the
stateful model below). -/
def toS (p : GraphProblem ν) : SProblem ν ν (WithTop Int) where
  initial := p.initial
  actions A := (p.graph.get A).map Prod.fst
  result _ action := action
  goal_test := p.goal_test
  path_cost := p.path_cost

end GraphProblem

/-! ## Stateful model of a search run over a mutable `Graph`

`Graph.get` calls `dict.setdefault`, which inserts an empty entry for a
missing key.  The following definitions thread the `Graph` through one
concrete search (`depth_first_graph_search` on a `GraphProblem`) so that
the state of the graph after the run can be compared with its state
before it. -/

variable {ν : Type}

/-- `node.expand(problem)` for a `GraphProblem`, threading the graph:
`problem.actions` reads (and may extend) the adjacency dict, then each
`child_node` calls `problem.path_cost`, which performs `get(A, B)`. -/
def expandS [DecidableEq ν] (g : Graph ν) (n : SNode ν ν (WithTop Int)) :
    List (SNode ν ν (WithTop Int)) × Graph ν :=
  let (links, g₁) := g.getS n.state
  (links.map Prod.fst).foldl
    (fun acc a =>
      let (w, g') := acc.2.getS₂ n.state a
      (acc.1 ++ [SNode.new a (some n) (some a) (n.path_cost + orInf w)],
        g'))
    ([], g₁)

/-- The `depth_first_graph_search` loop over a `GraphProblem`, threading
the mutable graph through every `get` call. -/
def dfsRunS [DecidableEq ν] (p : GraphProblem ν) :
    Nat → List (SNode ν ν (WithTop Int)) → Finset ν → Graph ν →
    Outcome ν ν (WithTop Int) × Graph ν
  | 0, _, _, g => (.outOfFuel, g)
  | fuel + 1, fr, ex, g =>
    match fr.getLast? with
    | none => (.failure ex.card, g)
    | some node =>
      if p.goal_test node.state then (.found node ex.card, g)
      else
        let ex' := insert node.state ex
        let (children, g') := expandS g node
        dfsRunS p fuel (dfsExtend ex' children fr.dropLast) ex' g'

/-- `depth_first_graph_search` on a `GraphProblem`, returning the final
state of the graph alongside the result. -/
def depth_first_graph_searchS [DecidableEq ν] (p : GraphProblem ν)
    (fuel : Nat) : Outcome ν ν (WithTop Int) × Graph ν :=
  dfsRunS p fuel [SNode.new p.initial none none 0] ∅ p.graph

/-! ## The text-file graph loader (`load_graph_from_file`)

The file is modelled as its list of lines.  Operations that raise in
Python (failed `int(...)`, tuple-unpacking of the wrong arity, a missing
`parts[1]`) make the loader return `none`. -/

/-- Python `str.strip()` on a character list (whitespace from both
ends).  (The parser works on `List Char`: every operation is structural,
so concrete files evaluate inside the kernel.) -/
def pyStrip (s : List Char) : List Char :=
  ((s.dropWhile Char.isWhitespace).reverse.dropWhile
    Char.isWhitespace).reverse

/-- Python `str.strip(chars)`: remove any of `cs` from both ends. -/
def stripChars (cs : List Char) (s : List Char) : List Char :=
  ((s.dropWhile (· ∈ cs)).reverse.dropWhile (· ∈ cs)).reverse

/-- Python `str.split(sep)` for the one-character separators the loader
uses: the (possibly empty) pieces between occurrences of `c`. -/
def splitChar (c : Char) : List Char → List (List Char)
  | [] => [[]]
  | x :: xs =>
    let r := splitChar c xs
    if x = c then [] :: r else (x :: r.headD []) :: r.tail

/-- The value of a nonempty all-digit list; `none` otherwise. -/
def digitsToNat (s : List Char) : Option Nat :=
  match s with
  | [] => none
  | _ =>
    s.foldl
      (fun acc c => acc.bind fun n =>
        if c.isDigit then some (n * 10 + (c.toNat - 48)) else none)
      (some 0)

/-- Python `int(s)`: optional surrounding whitespace, an optional sign,
then decimal digits; `none` models the `ValueError`. -/
def pyInt (s : List Char) : Option Int :=
  match pyStrip s with
  | '-' :: rest => (digitsToNat rest).map fun n => -(n : Int)
  | '+' :: rest => (digitsToNat rest).map fun n => (n : Int)
  | rest => (digitsToNat rest).map fun n => (n : Int)

/-- The `section` variable of the loader's line loop. -/
inductive FSection : Type where
  | nodes | edges | origin | destinations

/-- The loader's accumulating data structures. -/
structure LoadState : Type where
  nodes : List (Int × (Int × Int)) := []
  edges : List ((Int × Int) × Int) := []
  origin : Option Int := none
  destinations : List Int := []
deriving DecidableEq

/-- One `Nodes:`-section line, e.g. `1: (4,1)`:
`node = int(parts[0])`, `coords = map(int, parts[1].strip(" ()").split(','))`,
`nodes[node] = coords`.  (A coordinate list that is not a pair is rejected
here; Python would store it and fail later when unpacking it.) -/
def parseNodeLine (st : LoadState) (line : List Char) : Option LoadState :=
  match splitChar ':' line with
  | p0 :: p1 :: _ => do
    let node ← pyInt p0
    let coords ← (splitChar ',' (stripChars [' ', '(', ')'] p1)).mapM pyInt
    match coords with
    | [x, y] => some { st with nodes := aset st.nodes node (x, y) }
    | _ => none
  | _ => none

/-- One `Edges:`-section line, e.g. `(2,1): 4`:
`n1, n2 = map(int, parts[0].strip(" ()").split(','))`,
`cost = int(parts[1])`, `edges.setdefault((n1, n2), cost)` (a duplicate
edge key keeps its first declared weight). -/
def parseEdgeLine (st : LoadState) (line : List Char) : Option LoadState :=
  match splitChar ':' line with
  | p0 :: p1 :: _ => do
    let ns ← (splitChar ',' (stripChars [' ', '(', ')'] p0)).mapM pyInt
    match ns with
    | [n1, n2] =>
      let cost ← pyInt p1
      some { st with edges := (asetd st.edges (n1, n2) cost).2 }
    | _ => none
  | _ => none

/-- The loader's line loop: recognise section headers, skip blank lines
and lines before the first header, and dispatch content lines to the
current section (later `Origin:`/`Destinations:` lines overwrite earlier
ones, as in the source). -/
def loadLoop : List String → Option FSection → LoadState →
    Option LoadState
  | [], _, st => some st
  | l :: ls, sec, st =>
    let line := pyStrip l.data
    if line = "Nodes:".data then loadLoop ls (some .nodes) st
    else if line = "Edges:".data then loadLoop ls (some .edges) st
    else if line = "Origin:".data then loadLoop ls (some .origin) st
    else if line = "Destinations:".data then
      loadLoop ls (some .destinations) st
    else if line = [] then loadLoop ls sec st
    else
      match sec with
      | none => loadLoop ls sec st
      | some .nodes => (parseNodeLine st line).bind (loadLoop ls sec)
      | some .edges => (parseEdgeLine st line).bind (loadLoop ls sec)
      | some .origin =>
        (pyInt line).bind fun o => loadLoop ls sec { st with origin := some o }
      | some .destinations =>
        ((splitChar ';' line).mapM pyInt).bind fun ds =>
          loadLoop ls sec { st with destinations := ds }

/-- The graph-construction loop of `load_graph_from_file`:
for each declared node, connect every declared edge whose source is that
node (one-way), then attach the `locations` attribute. -/
def buildGraph (st : LoadState) : Graph Int :=
  let g :=
    st.nodes.foldl
      (fun (g : Graph Int) nc =>
        st.edges.foldl
          (fun (g : Graph Int) ec =>
            if ec.1.1 = nc.1 then g.connect1 ec.1.1 ec.1.2 ec.2 else g)
          g)
      { graph_dict := [] }
  { g with locations := some st.nodes }

/-- `load_graph_from_file`, from the file's lines. -/
def load_graph_from_file (lines : List String) :
    Option (Graph Int × Option Int × List Int) :=
  (loadLoop lines none {}).map fun st =>
    (buildGraph st, st.origin, st.destinations)

/-! ## Reachability and walks -/

variable {σ α κ : Type}

/-- Walks of the abstract transition system of a problem: `ReachN p s t n`
holds when `t` is reachable from `s` in exactly `n` expansion steps. -/
inductive ReachN (p : SProblem σ α κ) : σ → σ → Nat → Prop where
  | refl (s : σ) : ReachN p s s 0
  | step {s t u : σ} {n : Nat} {a : α} : a ∈ p.actions s →
      p.result s a = t → ReachN p t u n → ReachN p s u (n + 1)

/-- A state reachable from the initial state. -/
def ReachableP (p : SProblem σ α κ) (s : σ) : Prop :=
  ∃ n, ReachN p p.initial s n

/-- Walks of a `Graph` along directed edges: `GWalk g a b n` holds when
there is a path (walk) of exactly `n` edges from `a` to `b`. -/
inductive GWalk [DecidableEq ν] (g : Graph ν) : ν → ν → Nat → Prop where
  | refl (a : ν) : GWalk g a a 0
  | step {a b c : ν} {n : Nat} {w : Int} : g.get₂ a b = some w →
      GWalk g b c n → GWalk g a c (n + 1)

/-- Nodes actually constructed by a search: the root, or a `child_node`
of a constructed node by an applicable action. -/
inductive NodeOk [Zero κ] (p : SProblem σ α κ) : SNode σ α κ → Prop where
  | root : NodeOk p (rootNode p)
  | child {n : SNode σ α κ} {a : α} : NodeOk p n → a ∈ p.actions n.state →
      NodeOk p (SNode.child_node p n a)

/-! ## Basic lemmas about nodes, expansion and walks -/

section Lemmas

variable {p : SProblem σ α κ}

@[simp]
theorem SNode.state_child_node (p : SProblem σ α κ) (n : SNode σ α κ)
    (a : α) : (SNode.child_node p n a).state = p.result n.state a := rfl

@[simp]
theorem SNode.depth_child_node (p : SProblem σ α κ) (n : SNode σ α κ)
    (a : α) : (SNode.child_node p n a).depth = n.depth + 1 := rfl

@[simp]
theorem SNode.parent_child_node (p : SProblem σ α κ) (n : SNode σ α κ)
    (a : α) : (SNode.child_node p n a).parent = some n := rfl

@[simp]
theorem SNode.action_child_node (p : SProblem σ α κ) (n : SNode σ α κ)
    (a : α) : (SNode.child_node p n a).action = some a := rfl

@[simp]
theorem SNode.path_cost_child_node (p : SProblem σ α κ) (n : SNode σ α κ)
    (a : α) : (SNode.child_node p n a).path_cost =
      p.path_cost n.path_cost n.state a (p.result n.state a) := rfl

@[simp]
theorem rootNode_state [Zero κ] (p : SProblem σ α κ) :
    (rootNode p).state = p.initial := rfl

@[simp]
theorem rootNode_depth [Zero κ] (p : SProblem σ α κ) :
    (rootNode p).depth = 0 := rfl

theorem SNode.mem_expand {c n : SNode σ α κ} :
    c ∈ n.expand p ↔ ∃ a ∈ p.actions n.state, c = SNode.child_node p n a := by
  simp [SNode.expand, eq_comm]

theorem SNode.state_mem_expand {n : SNode σ α κ} {a : α}
    (ha : a ∈ p.actions n.state) :
    p.result n.state a ∈ (n.expand p).map SNode.state := by
  simp only [SNode.expand, List.map_map, List.mem_map]
  exact ⟨a, ha, rfl⟩

/-- The recursive characterisation of `Node.path`: a parentless node's
path is itself; a child's path is its parent's path with itself
appended. -/
theorem SNode.path_eq (n : SNode σ α κ) :
    (n.parent = none → n.path = [n]) ∧
      ∀ q, n.parent = some q → n.path = q.path ++ [n] := by
  constructor
  · intro h
    cases n with
    | orphan s a c d => simp [SNode.path, SNode.pathBack]
    | child s q a c d => simp [SNode.parent] at h
  · intro q h
    cases n with
    | orphan s a c d => simp [SNode.parent] at h
    | child s q' a c d =>
      simp only [SNode.parent, Option.some_inj] at h
      subst h
      simp [SNode.path, SNode.pathBack]

theorem SNode.path_child_node (p : SProblem σ α κ) (n : SNode σ α κ)
    (a : α) :
    (SNode.child_node p n a).path = n.path ++ [SNode.child_node p n a] :=
  (SNode.path_eq _).2 n rfl

theorem SNode.solution_child_node (p : SProblem σ α κ) (n : SNode σ α κ)
    (a : α) :
    (SNode.child_node p n a).solution = n.solution ++ [some a] := by
  have hne : n.path ≠ [] := by
    rcases n with _ | _ <;> simp [SNode.path, SNode.pathBack]
  have h1 : 1 ≤ n.path.length := List.length_pos.mpr hne
  simp only [SNode.solution, SNode.path_child_node p n a,
    List.drop_append_of_le_length h1, List.map_append]
  rfl

/-- Composing a walk with one more step at its end. -/
theorem ReachN.snoc {s t u : σ} {n : Nat} {a : α}
    (h : ReachN p s t n) (ha : a ∈ p.actions t) (hr : p.result t a = u) :
    ReachN p s u (n + 1) := by
  induction h with
  | refl s => exact ReachN.step ha hr (ReachN.refl u)
  | step ha' hr' _ ih => exact ReachN.step ha' hr' (ih ha hr)

/-- Removing the last step of a nonempty walk. -/
theorem ReachN.unsnoc {s u : σ} {n : Nat}
    (h : ReachN p s u (n + 1)) :
    ∃ t a, ReachN p s t n ∧ a ∈ p.actions t ∧ p.result t a = u := by
  induction n generalizing s with
  | zero =>
    rcases h with _ | ⟨ha, hr, h0⟩
    rcases h0 with _ | _
    exact ⟨s, _, ReachN.refl s, ha, hr⟩
  | succ m ih =>
    rcases h with _ | ⟨ha, hr, h1⟩
    obtain ⟨t, a, hw, ha', hr'⟩ := ih h1
    exact ⟨t, a, ReachN.step ha hr hw, ha', hr'⟩

/-- A constructed node's state is reached by a walk whose length is the
node's depth. -/
theorem NodeOk.reach [Zero κ] {n : SNode σ α κ} (h : NodeOk p n) :
    ReachN p p.initial n.state n.depth := by
  induction h with
  | root => exact ReachN.refl _
  | child hn ha ih => exact ih.snoc ha rfl

theorem NodeOk.reachable [Zero κ] {n : SNode σ α κ} (h : NodeOk p n) :
    ReachableP p n.state := ⟨n.depth, h.reach⟩

/-- A constructed node's `path()` has `depth + 1` entries. -/
theorem NodeOk.path_length [Zero κ] {n : SNode σ α κ} (h : NodeOk p n) :
    n.path.length = n.depth + 1 := by
  induction h with
  | root => simp [rootNode, SNode.new, SNode.path, SNode.pathBack, SNode.depth]
  | child hn ha ih => simp [SNode.path_child_node, ih]

/-- Walks stay inside any transition-closed superset of their start. -/
theorem ReachN.mem_closed {R : Finset σ} {s t : σ} {n : Nat}
    (hclosed : ∀ u ∈ R, ∀ a ∈ p.actions u, p.result u a ∈ R)
    (hs : s ∈ R) (h : ReachN p s t n) : t ∈ R := by
  induction h with
  | refl _ => exact hs
  | step ha hr _ ih => exact ih (hr ▸ hclosed _ hs _ ha)

@[simp]
theorem containsState_iff [DecidableEq σ] {fr : List (SNode σ α κ)}
    {s : σ} : containsState fr s = true ↔ s ∈ fr.map SNode.state := by
  simp only [containsState, List.any_eq_true, decide_eq_true_eq,
    List.mem_map]

theorem containsState_false [DecidableEq σ] {fr : List (SNode σ α κ)}
    {s : σ} : containsState fr s = false ↔ s ∉ fr.map SNode.state := by
  rw [← Bool.not_eq_true, containsState_iff]

end Lemmas

/-! ## The graph-search frontier/explored invariant (DFS and best-first) -/

section Invariants

variable [DecidableEq σ] [Zero κ]

/-- The invariant shared by the graph-search loops: frontier states are
pairwise distinct and disjoint from the explored set, every frontier node
was built by legal expansion, and every explored state is reachable. -/
structure SearchInv (p : SProblem σ α κ) (fr : List (SNode σ α κ))
    (ex : Finset σ) : Prop where
  nodup : (fr.map SNode.state).Nodup
  disj : ∀ n ∈ fr, n.state ∉ ex
  ok : ∀ n ∈ fr, NodeOk p n
  exReach : ∀ s ∈ ex, ReachableP p s

omit [DecidableEq σ] in
theorem SearchInv.init (p : SProblem σ α κ) :
    SearchInv p [rootNode p] (∅ : Finset σ) where
  nodup := by simp
  disj := by simp
  ok := by simp [NodeOk.root]
  exReach := by simp

omit [DecidableEq σ] [Zero κ] in
theorem nodup_append_one {l : List σ} {x : σ} (h : l.Nodup) (hx : x ∉ l) :
    (l ++ [x]).Nodup :=
  List.nodup_append.mpr ⟨h, List.nodup_singleton x, by simpa using hx⟩

variable {p : SProblem σ α κ}

/-- `frontier.extend(...)` of DFS preserves the invariant when every
candidate child was built by legal expansion. -/
theorem dfsExtend_inv {E : Finset σ} {C F : List (SNode σ α κ)}
    (hnodup : (F.map SNode.state).Nodup)
    (hdisj : ∀ n ∈ F, n.state ∉ E)
    (hok : ∀ n ∈ F, NodeOk p n)
    (hcs : ∀ c ∈ C, NodeOk p c) :
    ((dfsExtend E C F).map SNode.state).Nodup ∧
      (∀ n ∈ dfsExtend E C F, n.state ∉ E) ∧
      ∀ n ∈ dfsExtend E C F, NodeOk p n := by
  induction C generalizing F with
  | nil => exact ⟨hnodup, hdisj, hok⟩
  | cons c cs ih =>
    simp only [dfsExtend]
    by_cases hc : c.state ∉ E ∧ containsState F c.state = false
    · rw [if_pos hc]
      refine ih ?_ ?_ ?_ (fun d hd => hcs d (List.mem_cons_of_mem c hd))
      · rw [List.map_append]
        exact nodup_append_one hnodup (containsState_false.mp hc.2)
      · intro n hn
        rcases List.mem_append.mp hn with h | h
        · exact hdisj n h
        · rw [List.mem_singleton.mp h]; exact hc.1
      · intro n hn
        rcases List.mem_append.mp hn with h | h
        · exact hok n h
        · rw [List.mem_singleton.mp h]
          exact hcs c (List.mem_cons_self c cs)
    · rw [if_neg hc]
      exact ih hnodup hdisj hok fun d hd => hcs d (List.mem_cons_of_mem c hd)

/-- One DFS iteration: a `done` result returns the current explored
count; a `next` configuration satisfies the invariant again. -/
theorem dfsStep_cases {fr : List (SNode σ α κ)} {ex : Finset σ}
    (inv : SearchInv p fr ex) :
    (∃ k, dfsStep p (fr, ex) = .done (.failure k) ∧ k = ex.card) ∨
      (∃ n k, dfsStep p (fr, ex) = .done (.found n k) ∧ k = ex.card) ∨
      ∃ fr' ex', dfsStep p (fr, ex) = .next (fr', ex') ∧
        SearchInv p fr' ex' := by
  match hlast : fr.getLast? with
  | none =>
    exact Or.inl ⟨ex.card, by simp [dfsStep, hlast], rfl⟩
  | some node =>
    have hfr : fr = fr.dropLast ++ [node] :=
      (List.dropLast_append_getLast? node hlast).symm
    have hmem : node ∈ fr :=
      hfr ▸ List.mem_append_right _ (List.mem_singleton_self node)
    by_cases hgoal : p.goal_test node.state = true
    · exact Or.inr (Or.inl ⟨node, ex.card, by simp [dfsStep, hlast, hgoal], rfl⟩)
    · refine Or.inr (Or.inr
        ⟨dfsExtend (insert node.state ex) (node.expand p) fr.dropLast,
          insert node.state ex, by simp [dfsStep, hlast, hgoal], ?_⟩)
      have hnodup : ((fr.dropLast ++ [node]).map SNode.state).Nodup := by
        rw [← hfr]; exact inv.nodup
      rw [List.map_append] at hnodup
      have hnd : (fr.dropLast.map SNode.state).Nodup :=
        (List.nodup_append.mp hnodup).1
      have hnm : node.state ∉ fr.dropLast.map SNode.state := by
        intro h
        exact (List.nodup_append.mp hnodup).2.2 h (by simp)
      have hsub : ∀ n ∈ fr.dropLast, n ∈ fr := fun n hn =>
        hfr ▸ List.mem_append_left _ hn
      refine
        { nodup := ?_, disj := ?_, ok := ?_, exReach := ?_ } <;>
        obtain ⟨h1, h2, h3⟩ :=
          dfsExtend_inv (p := p) (E := insert node.state ex)
            (C := node.expand p) (F := fr.dropLast) hnd
            (fun n hn => by
              simp only [Finset.mem_insert, not_or]
              refine ⟨?_, inv.disj n (hsub n hn)⟩
              intro hs
              exact hnm (hs ▸ List.mem_map_of_mem SNode.state hn))
            (fun n hn => inv.ok n (hsub n hn))
            (fun c hc => by
              obtain ⟨a, ha, rfl⟩ := SNode.mem_expand.mp hc
              exact (inv.ok node hmem).child ha)
      · exact h1
      · exact h2
      · exact h3
      · intro s hs
        rcases Finset.mem_insert.mp hs with h | h
        · exact h ▸ (inv.ok node hmem).reachable
        · exact inv.exReach s h

/-- The invariant holds at every DFS loop boundary. -/
theorem dfs_iterCfg_inv {fr : List (SNode σ α κ)} {ex : Finset σ}
    (inv : SearchInv p fr ex) :
    ∀ k cfg, iterCfg (dfsStep p) k (fr, ex) = some cfg →
      SearchInv p cfg.1 cfg.2 := by
  intro k
  induction k generalizing fr ex with
  | zero =>
    intro cfg h
    cases Option.some_inj.mp h
    exact inv
  | succ k ih =>
    intro cfg h
    rcases dfsStep_cases inv with ⟨k', hs, _⟩ | ⟨n', k', hs, _⟩ |
      ⟨fr', ex', hs, inv'⟩ <;>
      rw [iterCfg, hs] at h
    · cases h
    · cases h
    · exact ih inv' cfg h

theorem explored_card_le {ex : Finset σ} {R : Finset σ}
    (hR : ∀ s, ReachableP p s → s ∈ R)
    (hex : ∀ s ∈ ex, ReachableP p s) : ex.card ≤ R.card :=
  Finset.card_le_card fun s hs => hR s (hex s hs)

/-- Any explored count DFS returns is bounded by the size of any set
containing all reachable states. -/
theorem dfs_count_le {fr : List (SNode σ α κ)} {ex : Finset σ}
    (inv : SearchInv p fr ex) {R : Finset σ}
    (hR : ∀ s, ReachableP p s → s ∈ R) :
    ∀ fuel n k, (iterate (dfsStep p) fuel (fr, ex) = .found n k ∨
      iterate (dfsStep p) fuel (fr, ex) = .failure k) → k ≤ R.card := by
  intro fuel
  induction fuel generalizing fr ex with
  | zero =>
    intro n k h
    rcases h with h | h <;> simp [iterate] at h
  | succ fuel ih =>
    intro n k h
    rcases dfsStep_cases inv with ⟨k', hs, hk⟩ | ⟨n', k', hs, hk⟩ |
      ⟨fr', ex', hs, inv'⟩ <;> rw [iterate, hs] at h
    · rcases h with h | h
      · cases h
      · cases h
        exact hk ▸ explored_card_le hR inv.exReach
    · rcases h with h | h
      · cases h
        exact hk ▸ explored_card_le hR inv.exReach
      · cases h
    · exact ih inv' n k h

omit [Zero κ] in
/-- `eraseP` with a predicate that only accepts nodes carrying `m`'s
state removes the unique such entry of a duplicate-free frontier. -/
theorem eraseP_state_not_mem {l : List (SNode σ α κ)} {m : SNode σ α κ}
    {q : SNode σ α κ → Bool} (hq : ∀ x, q x = true → x.state = m.state)
    (hm : m ∈ l) (hqm : q m = true) (h : (l.map SNode.state).Nodup) :
    m.state ∉ (l.eraseP q).map SNode.state := by
  induction l with
  | nil => simp at hm
  | cons n l ih =>
    simp only [List.map_cons, List.nodup_cons] at h
    by_cases hn : q n = true
    · rw [List.eraseP_cons_of_pos hn]
      exact (hq n hn) ▸ h.1
    · rw [List.eraseP_cons_of_neg (by simp [hn])]
      have hml : m ∈ l := by
        rcases List.mem_cons.mp hm with rfl | hml
        · exact absurd hqm hn
        · exact hml
      have hne : m.state ≠ n.state := by
        intro hcontra
        exact h.1 (hcontra ▸ List.mem_map_of_mem SNode.state hml)
      simp only [List.map_cons, List.mem_cons]
      rintro (hcontra | hcontra)
      · exact hne hcontra
      · exact ih hml h.2 hcontra

omit [Zero κ] in
theorem pqMin_mem [LinearOrder ν] [LinearOrder σ] {f : SNode σ α κ → ν}
    (n : SNode σ α κ) (ns : List (SNode σ α κ)) :
    pqMin f n ns ∈ n :: ns := by
  induction ns generalizing n with
  | nil => simp [pqMin]
  | cons m ms ih =>
    simp only [pqMin, List.foldl_cons]
    have := ih (if f m < f n ∨ (f m = f n ∧ m.state < n.state) then m else n)
    simp only [pqMin] at this
    rcases List.mem_cons.mp this with h | h
    · rw [h]
      split
      · exact List.mem_cons_of_mem _ (List.mem_cons_self _ _)
      · exact List.mem_cons_self _ _
    · exact List.mem_cons_of_mem _ (List.mem_cons_of_mem _ h)

omit [Zero κ] in
/-- Popping the priority queue yields a queue member; the remainder is a
sublist; under distinct states the popped state is gone. -/
theorem popMin_some [LinearOrder ν] [LinearOrder σ] {f : SNode σ α κ → ν}
    {l rest : List (SNode σ α κ)} {m : SNode σ α κ}
    (h : popMin f l = some (m, rest)) :
    m ∈ l ∧ rest.Sublist l ∧
      ((l.map SNode.state).Nodup → m.state ∉ rest.map SNode.state) := by
  match l with
  | [] => simp [popMin] at h
  | n :: ns =>
    simp only [popMin, Option.some_inj, Prod.mk.injEq] at h
    obtain ⟨rfl, hrest⟩ := h
    have hmem : pqMin f n ns ∈ n :: ns := pqMin_mem n ns
    refine ⟨hmem, hrest ▸ List.eraseP_sublist _, fun hnd => ?_⟩
    refine hrest ▸
      eraseP_state_not_mem (fun x hx => ?_) hmem ?_ hnd
    · simp only [decide_eq_true_eq] at hx
      exact hx.2
    · simp

omit [Zero κ] in
theorem popMin_none [LinearOrder ν] [LinearOrder σ] {f : SNode σ α κ → ν}
    {l : List (SNode σ α κ)} (h : popMin f l = none) : l = [] := by
  match l with
  | [] => rfl
  | n :: ns => simp [popMin] at h

/-- The child-handling branch of best-first search preserves the
invariant properties of the frontier. -/
theorem bestHandleChild_inv [LinearOrder ν] {f : SNode σ α κ → ν}
    {ex : Finset σ} {fr : List (SNode σ α κ)} {c : SNode σ α κ}
    (hnodup : (fr.map SNode.state).Nodup)
    (hdisj : ∀ n ∈ fr, n.state ∉ ex)
    (hok : ∀ n ∈ fr, NodeOk p n) (hc : NodeOk p c) :
    ((bestHandleChild f ex fr c).map SNode.state).Nodup ∧
      (∀ n ∈ bestHandleChild f ex fr c, n.state ∉ ex) ∧
      ∀ n ∈ bestHandleChild f ex fr c, NodeOk p n := by
  unfold bestHandleChild
  by_cases h1 : c.state ∉ ex ∧ containsState fr c.state = false
  · rw [if_pos h1]
    refine ⟨?_, ?_, ?_⟩
    · rw [List.map_append]
      exact nodup_append_one hnodup (containsState_false.mp h1.2)
    · intro n hn
      rcases List.mem_append.mp hn with h | h
      · exact hdisj n h
      · rw [List.mem_singleton.mp h]; exact h1.1
    · intro n hn
      rcases List.mem_append.mp hn with h | h
      · exact hok n h
      · rw [List.mem_singleton.mp h]; exact hc
  · rw [if_neg h1]
    by_cases h2 : containsState fr c.state = true
    · rw [if_pos h2]
      obtain ⟨q0, hq0, hq0s⟩ := List.mem_map.mp (containsState_iff.mp h2)
      rcases hlook : pqLookup f fr c with _ | v
      · simp only [hlook]
        exact ⟨hnodup, hdisj, hok⟩
      · simp only [hlook]
        by_cases hlt : f c < v
        · rw [if_pos hlt]
          have herase : c.state ∉ (pqErase fr c).map SNode.state := by
            have := eraseP_state_not_mem (l := fr) (m := q0)
              (q := fun x => decide (x.state = c.state))
              (fun x hx => by
                simp only [decide_eq_true_eq] at hx
                rw [hx, hq0s])
              hq0 (by simp [hq0s]) hnodup
            rw [hq0s] at this
            exact this
          have hsub : (pqErase fr c).Sublist fr := List.eraseP_sublist _
          refine ⟨?_, ?_, ?_⟩
          · rw [List.map_append]
            exact nodup_append_one (hnodup.sublist (hsub.map _)) herase
          · intro n hn
            rcases List.mem_append.mp hn with h | h
            · exact hdisj n (hsub.mem h)
            · rw [List.mem_singleton.mp h, ← hq0s]
              exact hdisj q0 hq0
          · intro n hn
            rcases List.mem_append.mp hn with h | h
            · exact hok n (hsub.mem h)
            · rw [List.mem_singleton.mp h]; exact hc
        · rw [if_neg hlt]
          exact ⟨hnodup, hdisj, hok⟩
    · rw [if_neg h2]
      exact ⟨hnodup, hdisj, hok⟩

/-- The best-first child loop preserves the invariant properties. -/
theorem bestFold_inv [LinearOrder ν] {f : SNode σ α κ → ν} {E : Finset σ}
    {C F : List (SNode σ α κ)}
    (hnodup : (F.map SNode.state).Nodup)
    (hdisj : ∀ n ∈ F, n.state ∉ E)
    (hok : ∀ n ∈ F, NodeOk p n) (hcs : ∀ c ∈ C, NodeOk p c) :
    (((C.foldl (bestHandleChild f E) F).map SNode.state).Nodup ∧
      (∀ n ∈ C.foldl (bestHandleChild f E) F, n.state ∉ E) ∧
      ∀ n ∈ C.foldl (bestHandleChild f E) F, NodeOk p n) := by
  induction C generalizing F with
  | nil => exact ⟨hnodup, hdisj, hok⟩
  | cons c cs ih =>
    obtain ⟨h1, h2, h3⟩ := bestHandleChild_inv (f := f) hnodup hdisj hok
      (hcs c (List.mem_cons_self c cs))
    exact ih h1 h2 h3 fun d hd => hcs d (List.mem_cons_of_mem c hd)

/-- One best-first iteration: `done` returns the current explored count;
`next` satisfies the invariant again. -/
theorem bestStep_cases [LinearOrder ν] [LinearOrder σ]
    {f : SNode σ α κ → ν} {fr : List (SNode σ α κ)} {ex : Finset σ}
    (inv : SearchInv p fr ex) :
    (∃ k, bestStep p f (fr, ex) = .done (.failure k) ∧ k = ex.card) ∨
      (∃ n k, bestStep p f (fr, ex) = .done (.found n k) ∧ k = ex.card) ∨
      ∃ fr' ex', bestStep p f (fr, ex) = .next (fr', ex') ∧
        SearchInv p fr' ex' := by
  match hpop : popMin f fr with
  | none =>
    exact Or.inl ⟨ex.card, by simp [bestStep, hpop], rfl⟩
  | some (node, rest) =>
    obtain ⟨hmem, hsub, hgone⟩ := popMin_some hpop
    by_cases hgoal : p.goal_test node.state = true
    · exact Or.inr (Or.inl
        ⟨node, ex.card, by simp [bestStep, hpop, hgoal], rfl⟩)
    · refine Or.inr (Or.inr
        ⟨(node.expand p).foldl
            (bestHandleChild f (insert node.state ex)) rest,
          insert node.state ex, by simp [bestStep, hpop, hgoal], ?_⟩)
      have hgone' := hgone inv.nodup
      obtain ⟨h1, h2, h3⟩ :=
        bestFold_inv (p := p) (f := f) (E := insert node.state ex)
          (C := node.expand p) (F := rest)
          (inv.nodup.sublist (hsub.map _))
          (fun n hn => by
            simp only [Finset.mem_insert, not_or]
            exact ⟨fun hs =>
              hgone' (hs ▸ List.mem_map_of_mem SNode.state hn),
              inv.disj n (hsub.mem hn)⟩)
          (fun n hn => inv.ok n (hsub.mem hn))
          (fun c hc => by
            obtain ⟨a, ha, rfl⟩ := SNode.mem_expand.mp hc
            exact (inv.ok node hmem).child ha)
      exact
        { nodup := h1, disj := h2, ok := h3,
          exReach := fun s hs => by
            rcases Finset.mem_insert.mp hs with h | h
            · exact h ▸ (inv.ok node hmem).reachable
            · exact inv.exReach s h }

/-- The invariant holds at every best-first loop boundary. -/
theorem best_iterCfg_inv [LinearOrder ν] [LinearOrder σ]
    {f : SNode σ α κ → ν} {fr : List (SNode σ α κ)} {ex : Finset σ}
    (inv : SearchInv p fr ex) :
    ∀ k cfg, iterCfg (bestStep p f) k (fr, ex) = some cfg →
      SearchInv p cfg.1 cfg.2 := by
  intro k
  induction k generalizing fr ex with
  | zero =>
    intro cfg h
    cases Option.some_inj.mp h
    exact inv
  | succ k ih =>
    intro cfg h
    rcases bestStep_cases (f := f) inv with ⟨k', hs, _⟩ |
      ⟨n', k', hs, _⟩ | ⟨fr', ex', hs, inv'⟩ <;> rw [iterCfg, hs] at h
    · cases h
    · cases h
    · exact ih inv' cfg h

/-- Any explored count best-first search returns is bounded by the size
of any set containing all reachable states. -/
theorem best_count_le [LinearOrder ν] [LinearOrder σ]
    {f : SNode σ α κ → ν} {fr : List (SNode σ α κ)} {ex : Finset σ}
    (inv : SearchInv p fr ex) {R : Finset σ}
    (hR : ∀ s, ReachableP p s → s ∈ R) :
    ∀ fuel n k, (iterate (bestStep p f) fuel (fr, ex) = .found n k ∨
      iterate (bestStep p f) fuel (fr, ex) = .failure k) → k ≤ R.card := by
  intro fuel
  induction fuel generalizing fr ex with
  | zero =>
    intro n k h
    rcases h with h | h <;> simp [iterate] at h
  | succ fuel ih =>
    intro n k h
    rcases bestStep_cases (f := f) inv with ⟨k', hs, hk⟩ |
      ⟨n', k', hs, hk⟩ | ⟨fr', ex', hs, inv'⟩ <;> rw [iterate, hs] at h
    · rcases h with h | h
      · cases h
      · cases h
        exact hk ▸ explored_card_le hR inv.exReach
    · rcases h with h | h
      · cases h
        exact hk ▸ explored_card_le hR inv.exReach
      · cases h
    · exact ih inv' n k h

/-- The BFS child loop: either some new child is a goal and the loop
returns it with the current explored count, or the loop finishes with a
frontier that again satisfies the invariant properties. -/
theorem bfsChildren_cases {C F : List (SNode σ α κ)} {E : Finset σ}
    (hnodup : (F.map SNode.state).Nodup)
    (hdisj : ∀ n ∈ F, n.state ∉ E)
    (hok : ∀ n ∈ F, NodeOk p n) (hcs : ∀ c ∈ C, NodeOk p c) :
    (∃ c ∈ C, bfsChildren p C F E = .done (.found c E.card)) ∨
      ∃ fr', bfsChildren p C F E = .next (fr', E) ∧
        ((fr'.map SNode.state).Nodup ∧ (∀ n ∈ fr', n.state ∉ E) ∧
          ∀ n ∈ fr', NodeOk p n) := by
  induction C generalizing F with
  | nil => exact Or.inr ⟨F, rfl, hnodup, hdisj, hok⟩
  | cons c cs ih =>
    simp only [bfsChildren]
    by_cases h1 : c.state ∉ E ∧ containsState F c.state = false
    · rw [if_pos h1]
      by_cases hgoal : p.goal_test c.state = true
      · rw [if_pos hgoal]
        exact Or.inl ⟨c, List.mem_cons_self c cs, rfl⟩
      · rw [if_neg hgoal]
        have hnodup' : ((F ++ [c]).map SNode.state).Nodup := by
          rw [List.map_append]
          exact nodup_append_one hnodup (containsState_false.mp h1.2)
        have hdisj' : ∀ n ∈ F ++ [c], n.state ∉ E := by
          intro n hn
          rcases List.mem_append.mp hn with h | h
          · exact hdisj n h
          · rw [List.mem_singleton.mp h]; exact h1.1
        have hok' : ∀ n ∈ F ++ [c], NodeOk p n := by
          intro n hn
          rcases List.mem_append.mp hn with h | h
          · exact hok n h
          · rw [List.mem_singleton.mp h]
            exact hcs c (List.mem_cons_self c cs)
        rcases ih hnodup' hdisj' hok'
            (fun d hd => hcs d (List.mem_cons_of_mem c hd)) with
          ⟨c', hc', he⟩ | ⟨fr', he, hp⟩
        · exact Or.inl ⟨c', List.mem_cons_of_mem c hc', he⟩
        · exact Or.inr ⟨fr', he, hp⟩
    · rw [if_neg h1]
      rcases ih hnodup hdisj hok
          (fun d hd => hcs d (List.mem_cons_of_mem c hd)) with
        ⟨c', hc', he⟩ | ⟨fr', he, hp⟩
      · exact Or.inl ⟨c', List.mem_cons_of_mem c hc', he⟩
      · exact Or.inr ⟨fr', he, hp⟩

/-- One BFS iteration: `done` returns an explored count of states
already seen (after inserting the popped state); `next` satisfies the
invariant again. -/
theorem bfsStep_cases {fr : List (SNode σ α κ)} {ex : Finset σ}
    (inv : SearchInv p fr ex) :
    (∃ k, bfsStep p (fr, ex) = .done (.failure k) ∧ k = ex.card) ∨
      (∃ n k s, bfsStep p (fr, ex) = .done (.found n k) ∧
        k = (insert s ex).card ∧ ReachableP p s) ∨
      ∃ fr' ex', bfsStep p (fr, ex) = .next (fr', ex') ∧
        SearchInv p fr' ex' := by
  match fr with
  | [] => exact Or.inl ⟨ex.card, rfl, rfl⟩
  | node :: rest =>
    have hmem : node ∈ node :: rest := List.mem_cons_self _ _
    have hnodup : (rest.map SNode.state).Nodup :=
      (List.nodup_cons.mp inv.nodup).2
    have hnost : node.state ∉ rest.map SNode.state :=
      (List.nodup_cons.mp inv.nodup).1
    have hdisj : ∀ n ∈ rest, n.state ∉ insert node.state ex := by
      intro n hn
      simp only [Finset.mem_insert, not_or]
      exact ⟨fun hs => hnost (hs ▸ List.mem_map_of_mem SNode.state hn),
        inv.disj n (List.mem_cons_of_mem node hn)⟩
    have hok : ∀ n ∈ rest, NodeOk p n := fun n hn =>
      inv.ok n (List.mem_cons_of_mem node hn)
    have hcs : ∀ c ∈ node.expand p, NodeOk p c := fun c hc => by
      obtain ⟨a, ha, rfl⟩ := SNode.mem_expand.mp hc
      exact (inv.ok node hmem).child ha
    rcases bfsChildren_cases (p := p) (E := insert node.state ex)
        hnodup hdisj hok hcs with ⟨c, hc, he⟩ | ⟨fr', he, h1, h2, h3⟩
    · exact Or.inr (Or.inl ⟨c, (insert node.state ex).card, node.state,
        by simp [bfsStep, he], rfl, (inv.ok node hmem).reachable⟩)
    · refine Or.inr (Or.inr ⟨fr', insert node.state ex,
        by simp [bfsStep, he], ?_⟩)
      exact
        { nodup := h1, disj := h2, ok := h3,
          exReach := fun s hs => by
            rcases Finset.mem_insert.mp hs with h | h
            · exact h ▸ (inv.ok node hmem).reachable
            · exact inv.exReach s h }

/-- The invariant holds at every BFS loop boundary. -/
theorem bfs_iterCfg_inv {fr : List (SNode σ α κ)} {ex : Finset σ}
    (inv : SearchInv p fr ex) :
    ∀ k cfg, iterCfg (bfsStep p) k (fr, ex) = some cfg →
      SearchInv p cfg.1 cfg.2 := by
  intro k
  induction k generalizing fr ex with
  | zero =>
    intro cfg h
    cases Option.some_inj.mp h
    exact inv
  | succ k ih =>
    intro cfg h
    rcases bfsStep_cases inv with ⟨k', hs, _⟩ | ⟨n', k', s', hs, _⟩ |
      ⟨fr', ex', hs, inv'⟩ <;> rw [iterCfg, hs] at h
    · cases h
    · cases h
    · exact ih inv' cfg h

/-- Any explored count BFS returns is bounded by the size of any set
containing all reachable states. -/
theorem bfs_count_le {fr : List (SNode σ α κ)} {ex : Finset σ}
    (inv : SearchInv p fr ex) {R : Finset σ}
    (hR : ∀ s, ReachableP p s → s ∈ R) :
    ∀ fuel n k, (iterate (bfsStep p) fuel (fr, ex) = .found n k ∨
      iterate (bfsStep p) fuel (fr, ex) = .failure k) → k ≤ R.card := by
  intro fuel
  induction fuel generalizing fr ex with
  | zero =>
    intro n k h
    rcases h with h | h <;> simp [iterate] at h
  | succ fuel ih =>
    intro n k h
    rcases bfsStep_cases inv with ⟨k', hs, hk⟩ | ⟨n', k', s', hs, hk, hsr⟩ |
      ⟨fr', ex', hs, inv'⟩ <;> rw [iterate, hs] at h
    · rcases h with h | h
      · cases h
      · cases h
        exact hk ▸ explored_card_le hR inv.exReach
    · rcases h with h | h
      · cases h
        refine hk ▸ explored_card_le hR ?_
        intro s hs
        rcases Finset.mem_insert.mp hs with h | h
        · exact h ▸ hsr
        · exact inv.exReach s h
      · cases h
    · exact ih inv' n k h

end Invariants

/-! ## Association-list lemmas -/

section ALook

variable {ν β : Type} [DecidableEq ν]

@[simp]
theorem alook_nil (a : ν) : alook ([] : List (ν × β)) a = none := rfl

theorem alook_cons (k : ν) (v : β) (t : List (ν × β)) (a : ν) :
    alook ((k, v) :: t) a = if k = a then some v else alook t a := by
  by_cases h : k = a <;> simp [alook, List.find?_cons, h]

theorem alook_mem {l : List (ν × β)} {a : ν} {b : β}
    (h : alook l a = some b) : (a, b) ∈ l := by
  induction l with
  | nil => simp at h
  | cons x t ih =>
    obtain ⟨k, v⟩ := x
    rw [alook_cons] at h
    by_cases hk : k = a
    · rw [if_pos hk] at h
      cases h
      exact hk ▸ List.mem_cons_self _ _
    · rw [if_neg hk] at h
      exact List.mem_cons_of_mem _ (ih h)

theorem alook_eq_none {l : List (ν × β)} {a : ν}
    (h : ∀ b, (a, b) ∉ l) : alook l a = none := by
  induction l with
  | nil => rfl
  | cons x t ih =>
    obtain ⟨k, v⟩ := x
    rw [alook_cons]
    by_cases hk : k = a
    · exact absurd (hk ▸ List.mem_cons_self _ _) (h v)
    · exact if_neg hk ▸ ih fun b hb => h b (List.mem_cons_of_mem _ hb)

theorem mem_alook_isSome {l : List (ν × β)} {a : ν} {b : β}
    (h : (a, b) ∈ l) : ∃ c, alook l a = some c := by
  induction l with
  | nil => simp at h
  | cons x t ih =>
    obtain ⟨k, v⟩ := x
    rw [alook_cons]
    by_cases hk : k = a
    · exact ⟨v, if_pos hk⟩
    · rcases List.mem_cons.mp h with he | ht
      · cases he; exact absurd rfl hk
      · exact (if_neg hk) ▸ ih ht

theorem alook_append_one {β : Type} {l : List (ν × β)} (a : ν) (c : β)
    (x : ν) :
    alook (l ++ [(a, c)]) x =
      (alook l x).or (if a = x then some c else none) := by
  induction l with
  | nil => simp [alook_cons]
  | cons kv t ih =>
    obtain ⟨k, v⟩ := kv
    rw [List.cons_append, alook_cons, alook_cons, ih]
    by_cases hk : k = x <;> simp [hk]

/-- In a list with pairwise-distinct keys, lookup agrees with
membership. -/
theorem alook_eq_some_iff_of_nodup {l : List (ν × β)} {a : ν} {b : β}
    (h : (l.map Prod.fst).Nodup) : alook l a = some b ↔ (a, b) ∈ l := by
  refine ⟨alook_mem, fun hm => ?_⟩
  induction l with
  | nil => simp at hm
  | cons x t ih =>
    obtain ⟨k, v⟩ := x
    simp only [List.map_cons, List.nodup_cons] at h
    rw [alook_cons]
    by_cases hk : k = a
    · rcases List.mem_cons.mp hm with he | ht
      · cases he; rw [if_pos rfl]
      · exact absurd (hk ▸ List.mem_map_of_mem Prod.fst ht) h.1
    · rcases List.mem_cons.mp hm with he | ht
      · cases he; exact absurd rfl hk
      · exact (if_neg hk) ▸ ih h.2 ht

end ALook

/-- A one-action problem used by witnesses. -/
def pW7 : SProblem Int Int Int :=
  { initial := 0, actions := fun _ => [1], result := fun _ a => a,
    goal_test := fun _ => false, path_cost := fun c _ _ _ => c + 1 }

/-- A two-node graph problem used by witnesses. -/
def pW5 : GraphProblem Int :=
  { initial := 1, goal := .one 2, graph := { graph_dict := [(1, [(2, 4)])] } }

/-- A one-edge graph used by witnesses. -/
def gW10 : Graph Int := { graph_dict := [(1, [(2, 1)])] }

/-! ## Claim theorems (first group) -/

section ClaimsA

variable {σ α κ ν : Type}

/-- **C7.**  Search-tree construction: the root node has depth 0; every
child produced by `expand` arises from an applicable action and has depth
one more than its parent, state given by `problem.result`, and path cost
given by `problem.path_cost`; `path()` is the root-first ancestor list
(itself included): a parentless node's path is `[n]` and a child's path
is its parent's path with itself appended; and `solution()` is the action
list of `path()` with the root omitted: the root's solution is empty and
a child's solution appends its action to its parent's. -/
theorem C7_node_tree_construction [Zero κ] (p : SProblem σ α κ) :
    (rootNode p).depth = 0 ∧
      (∀ n : SNode σ α κ, ∀ c ∈ n.expand p, ∃ a ∈ p.actions n.state,
        c.depth = n.depth + 1 ∧ c.state = p.result n.state a ∧
        c.path_cost =
          p.path_cost n.path_cost n.state a (p.result n.state a)) ∧
      (∀ n : SNode σ α κ, (n.parent = none → n.path = [n]) ∧
        ∀ q, n.parent = some q → n.path = q.path ++ [n]) ∧
      (∀ n : SNode σ α κ, n.parent = none → n.solution = []) ∧
      ∀ (n : SNode σ α κ) (a : α), a ∈ p.actions n.state →
        (SNode.child_node p n a).solution = n.solution ++ [some a] := by
  refine ⟨rfl, ?_, fun n => SNode.path_eq n, ?_, ?_⟩
  · intro n c hc
    obtain ⟨a, ha, rfl⟩ := SNode.mem_expand.mp hc
    exact ⟨a, ha, rfl, rfl, rfl⟩
  · intro n h
    cases n with
    | orphan s a c d => simp [SNode.solution, SNode.path, SNode.pathBack]
    | child s q a c d => simp [SNode.parent] at h
  · intro n a _
    exact SNode.solution_child_node p n a

/-- Witness for C7 at a concrete one-action problem. -/
theorem C7_witness :
    ((1 : Int) ∈ (pW7.actions 0) ∧ (rootNode pW7).depth = 0) ∧
      (SNode.child_node pW7 (rootNode pW7) 1).solution =
        (rootNode pW7).solution ++ [some 1] :=
  ⟨⟨by decide, (C7_node_tree_construction pW7).1⟩,
    (C7_node_tree_construction pW7).2.2.2.2 (rootNode pW7) 1 (by decide)⟩

/-- The input exhibiting C4's divergence: a `GraphProblem` whose origin
already satisfies the goal test. -/
def pC4 : GraphProblem Int :=
  { initial := 1, goal := .one 1, graph := { graph_dict := [(1, [(2, 1)])] } }

/-- **C4.**  Divergence of `breadth_first_graph_search` from the claimed
return protocol: when the initial state already satisfies the goal test,
the function returns the bare root node (`return node`), not a
`(goal node, explored count)` pair — its caller `runGraphSeacrh`
unpacks two values and would fail on this value. -/
theorem C4_bfs_initial_goal_bare_return :
    breadth_first_graph_search pC4.toS 5 = .foundInit (rootNode pC4.toS) ∧
      ∀ (n : SNode Int Int (WithTop Int)) (k : Nat),
        breadth_first_graph_search pC4.toS 5 ≠ .found n k := by
  refine ⟨by decide, fun n k h => ?_⟩
  rw [show breadth_first_graph_search pC4.toS 5 =
      .foundInit (rootNode pC4.toS) by decide] at h
  cases h

/-- The graph exhibiting C5's divergence: an edge of weight 0. -/
def gC5 : Graph Int := { graph_dict := [(1, [(2, 0)])] }

/-- The `GraphProblem` over `gC5`. -/
def pC5 : GraphProblem Int := { initial := 1, goal := .one 2, graph := gC5 }

/-- **C5 counterexample.**  The claim fails at a 0-weight edge: the graph
has the edge `(1, 2)` with weight `0`, yet `path_cost(5, 1, ·, 2)` is the
infinite cost, not `5 + 0` — Python's `x or np.inf` treats the weight `0`
as falsy. -/
theorem C5_zero_weight_counterexample :
    gC5.get₂ 1 2 = some 0 ∧
      pC5.path_cost 5 1 2 2 ≠ (5 : WithTop Int) + ((0 : Int) : WithTop Int) := by
  decide

/-- **C5 (amended).**  `path_cost` adds the edge weight when the edge
exists and its weight is nonzero; a missing edge — or an edge whose
declared weight is the falsy value `0` — contributes the infinite cost
instead. -/
theorem C5_path_cost_amended [DecidableEq ν] (p : GraphProblem ν)
    (c : WithTop Int) (A act B : ν) :
    (∀ w : Int, p.graph.get₂ A B = some w → w ≠ 0 →
      p.path_cost c A act B = c + (w : WithTop Int)) ∧
      ((p.graph.get₂ A B = none ∨ p.graph.get₂ A B = some 0) →
        p.path_cost c A act B = ⊤) := by
  constructor
  · intro w hw hw0
    simp [GraphProblem.path_cost, orInf, hw, hw0]
  · rintro (hw | hw) <;> simp [GraphProblem.path_cost, orInf, hw]

/-- Witness for the amended C5 on a weighted and a missing edge. -/
theorem C5_amended_witness :
    (pW5.graph.get₂ 1 2 = some 4 ∧ (4 : Int) ≠ 0 ∧
        pW5.path_cost 5 1 2 2 = (5 : WithTop Int) + ((4 : Int) : WithTop Int)) ∧
      pW5.graph.get₂ 2 1 = none ∧ pW5.path_cost 5 2 1 1 = ⊤ :=
  ⟨⟨by decide, by decide,
      (C5_path_cost_amended pW5 5 1 2 2).1 4 (by decide) (by decide)⟩,
    by decide,
    (C5_path_cost_amended pW5 5 2 1 1).2 (Or.inl (by decide))⟩

/-- **C10.**  `Graph.get` is total on missing data: `get(a, b)` for a
missing edge returns `None` (no exception), and `get(a)` for an id that
is not the source of any edge returns the empty mapping (no
exception). -/
theorem C10_get_missing_total [DecidableEq ν] (g : Graph ν) (a b : ν) :
    (¬g.HasEdge a b → (g.getS₂ a b).1 = none) ∧
      ((∀ x, ¬g.HasEdge a x) → (g.getS a).1 = []) := by
  constructor
  · intro h
    rcases hd : alook g.graph_dict a with _ | l
    · simp [Graph.getS₂, Graph.getS, asetd, hd]
    · rcases hl : alook l b with _ | w
      · simp [Graph.getS₂, Graph.getS, asetd, hd, hl]
      · exact absurd ⟨l, w, hd, hl⟩ h
  · intro h
    rcases hd : alook g.graph_dict a with _ | l
    · simp [Graph.getS, asetd, hd]
    · match l, hd with
      | [], hd => simp [Graph.getS, asetd, hd]
      | (x, w) :: t, hd =>
        exact absurd ⟨(x, w) :: t, w, hd, by rw [alook_cons, if_pos rfl]⟩
          (h x)

/-- Witness for C10 on a concrete graph. -/
theorem C10_witness :
    ((¬gW10.HasEdge 1 3) ∧ (gW10.getS₂ 1 3).1 = none) ∧
      (∀ x, ¬gW10.HasEdge 7 x) ∧ (gW10.getS 7).1 = [] := by
  have h13 : ¬gW10.HasEdge 1 3 := by
    rintro ⟨l, w, hd, hl⟩
    rw [show alook gW10.graph_dict 1 = some [((2 : Int), (1 : Int))]
      from rfl] at hd
    cases hd
    rw [alook_cons] at hl
    simp at hl
  have h7 : ∀ x, ¬gW10.HasEdge 7 x := by
    rintro x ⟨l, w, hd, hl⟩
    rw [show alook gW10.graph_dict 7 = none from rfl] at hd
    cases hd
  exact ⟨⟨h13, (C10_get_missing_total gW10 1 3).1 h13⟩, h7,
    (C10_get_missing_total gW10 7 3).2 h7⟩

end ClaimsA

/-- Minimum of a `foldl min` chain: it is attained and bounds every
element. -/
theorem foldl_min_mem {β : Type} [LinearOrder β] (d : β) (l : List β) :
    l.foldl min d ∈ d :: l ∧ ∀ e ∈ d :: l, l.foldl min d ≤ e := by
  induction l generalizing d with
  | nil => simp
  | cons x l ih =>
    obtain ⟨hmem, hle⟩ := ih (min d x)
    simp only [List.foldl_cons]
    constructor
    · rcases List.mem_cons.mp hmem with h | h
      · rw [h]
        rcases le_total d x with hdx | hdx
        · rw [min_eq_left hdx]
          exact List.mem_cons_self _ _
        · rw [min_eq_right hdx]
          exact List.mem_cons_of_mem _ (List.mem_cons_self _ _)
      · exact List.mem_cons_of_mem _ (List.mem_cons_of_mem _ h)
    · intro e he
      rcases List.mem_cons.mp he with heq | he
      · rw [heq]
        exact le_trans (hle _ (List.mem_cons_self _ _)) (min_le_left _ _)
      · rcases List.mem_cons.mp he with heq | he
        · rw [heq]
          exact le_trans (hle _ (List.mem_cons_self _ _)) (min_le_right _ _)
        · exact hle _ (List.mem_cons_of_mem _ he)

/-- `sld` is the integer floor of the Euclidean straight-line distance
between the two coordinate pairs. -/
theorem sld_eq_floor_euclidean (a b : Int × Int) :
    GraphProblem.sld a b =
      ((⌊Real.sqrt (((a.1 - b.1) ^ 2 + (a.2 - b.2) ^ 2 : Int) : ℝ)⌋ : Int) :
        WithTop Int) := by
  have hnn : (0 : Int) ≤ (a.1 - b.1) ^ 2 + (a.2 - b.2) ^ 2 :=
    add_nonneg (sq_nonneg _) (sq_nonneg _)
  have hcast : (((a.1 - b.1) ^ 2 + (a.2 - b.2) ^ 2 : Int) : ℝ) =
      ((((a.1 - b.1) ^ 2 + (a.2 - b.2) ^ 2).toNat : Nat) : ℝ) := by
    rw [← Int.cast_natCast, Int.toNat_of_nonneg hnn]
  rw [GraphProblem.sld, hcast, Real.floor_real_sqrt_eq_nat_sqrt]

/-- Locations list used by the C6 witness. -/
def locsW6 : List (Int × (Int × Int)) := [(2, (0, 0)), (3, (3, 4))]

/-- Graph problem used by the C6 witness. -/
def pW6 : GraphProblem Int :=
  { initial := 2, goal := .one 3,
    graph := { graph_dict := [], locations := some locsW6 } }

section ClaimC6

/-- The input exhibiting C6's divergence: a nonempty `locations` mapping
that lacks coordinates for the node's state. -/
def gC6 : Graph Int := { graph_dict := [], locations := some [(3, (0, 0))] }

/-- The `GraphProblem` over `gC6`. -/
def pC6 : GraphProblem Int := { initial := 2, goal := .one 3, graph := gC6 }

/-- **C6 counterexample.**  With a nonempty `locations` mapping that has
no entry for the node's state, `h` raises a `KeyError` (modelled `none`)
instead of returning the positive-infinite sentinel `some ⊤` the claim
promises for every missing-coordinate situation. -/
theorem C6_missing_state_counterexample :
    pC6.h (rootNode pC6.toS) = none ∧
      (none : Option (WithTop Int)) ≠ some ⊤ := by
  decide

/-- **C6 (amended).**  `h` returns the positive-infinite sentinel exactly
when the `locations` attribute is absent or the empty dict (both falsy);
when every involved state has coordinates it returns the integer-floored
Euclidean straight-line distance to the goal — the minimum of the rounded
distances over the goal set when the goal is a list — and when
`locations` is nonempty but an involved state has no entry (or the goal
list is empty) `h` fails with an exception (`none`) rather than
returning the sentinel. -/
theorem C6_h_amended [DecidableEq ν] (p : GraphProblem ν)
    (node : SNode ν ν (WithTop Int)) :
    (p.graph.locations = none → p.h node = some ⊤) ∧
      (p.graph.locations = some [] → p.h node = some ⊤) ∧
      (∀ locs xy g gxy, p.graph.locations = some locs → p.goal = .one g →
        alook locs node.state = some xy → alook locs g = some gxy →
        p.h node = some (GraphProblem.sld xy gxy)) ∧
      (∀ locs xy gs ds, p.graph.locations = some locs →
        p.goal = .many gs → alook locs node.state = some xy →
        gs.mapM (fun g => (alook locs g).map fun b => GraphProblem.sld xy b) = some ds →
        ds ≠ [] → ∃ d ∈ ds, p.h node = some d ∧ ∀ e ∈ ds, d ≤ e) ∧
      (∀ locs, p.graph.locations = some locs → locs ≠ [] →
        alook locs node.state = none → p.h node = none) := by
  refine ⟨?_, ?_, ?_, ?_, ?_⟩
  · intro h
    simp [GraphProblem.h, h]
  · intro h
    simp [GraphProblem.h, h]
  · intro locs xy g gxy hlocs hg hxy hgxy
    have hne : locs ≠ [] := by
      intro h
      rw [h] at hxy
      simp at hxy
    simp [GraphProblem.h, hlocs, hg, hxy, hgxy, hne]
  · intro locs xy gs ds hlocs hg hxy hds hne
    have hlne : locs ≠ [] := by
      intro h
      rw [h] at hxy
      simp at hxy
    match ds, hne with
    | d :: ds, _ =>
      obtain ⟨hmem, hle⟩ := foldl_min_mem d ds
      refine ⟨ds.foldl min d, hmem, ?_, hle⟩
      simp only [GraphProblem.h, hlocs, hg, hxy, if_neg hlne]
      rw [hds]
  · intro locs hlocs hlne hxy
    rcases hg : p.goal with g | gs <;>
      simp [GraphProblem.h, hlocs, hg, hxy, hlne]

/-- Witness for the amended C6 on a concrete two-node layout (the
straight-line distance from `(0,0)` to `(3,4)` is `5`). -/
theorem C6_amended_witness :
    (pW6.graph.locations = some locsW6 ∧ pW6.goal = .one 3 ∧
        alook locsW6 (2 : Int) = some (0, 0) ∧
        alook locsW6 (3 : Int) = some (3, 4)) ∧
      pW6.h (rootNode pW6.toS) = some (GraphProblem.sld (0, 0) (3, 4)) ∧
      GraphProblem.sld (0, 0) (3, 4) = some ((5 : Int)) :=
  ⟨⟨rfl, rfl, by decide, by decide⟩,
    (C6_h_amended pW6 (rootNode pW6.toS)).2.2.1 locsW6 (0, 0) 3 (3, 4)
      rfl rfl (by decide) (by decide),
    by
      have h : (((0 : Int) - 3) ^ 2 + ((0 : Int) - 4) ^ 2).toNat = 5 * 5 := by
        decide
      simp only [GraphProblem.sld, h, Nat.sqrt_eq]
      rfl⟩

end ClaimC6

section ClaimsBC

variable {σ α κ ν : Type}

/-- In a frontier with pairwise-distinct states, `find?` by state locates
the given member. -/
theorem find_state_of_nodup [DecidableEq σ] {fr : List (SNode σ α κ)}
    {q : SNode σ α κ} (hnd : (fr.map SNode.state).Nodup) (hq : q ∈ fr)
    {s : σ} (hs : q.state = s) :
    fr.find? (fun x => decide (x.state = s)) = some q := by
  induction fr with
  | nil => simp at hq
  | cons n t ih =>
    simp only [List.map_cons, List.nodup_cons] at hnd
    by_cases hn : n.state = s
    · rw [List.find?_cons_of_pos _ (by simp [hn])]
      rcases List.mem_cons.mp hq with rfl | hqt
      · rfl
      · exact absurd (hn ▸ hs ▸ List.mem_map_of_mem SNode.state hqt) hnd.1
    · rw [List.find?_cons_of_neg _ (by simp [hn])]
      rcases List.mem_cons.mp hq with rfl | hqt
      · exact absurd hs hn
      · exact ih hnd.2 hqt

/-- **C2.**  At any reachable point of `best_first_graph_search`, after
popping a non-goal node, each child `c` of its expansion — handled
against the frontier as it stands when `c`'s turn comes — is processed
exactly as claimed: a child whose state is in neither the explored set
nor the frontier is enqueued; a child whose state is held by a queued
entry replaces that entry exactly when its `f`-value is strictly
smaller; a child whose state is explored is discarded. -/
theorem C2_best_first_child_policy [DecidableEq σ] [LinearOrder σ]
    [LinearOrder ν] [Zero κ] (p : SProblem σ α κ) (f : SNode σ α κ → ν)
    (k : Nat) (cfg : List (SNode σ α κ) × Finset σ)
    (hcfg : iterCfg (bestStep p (memoize f)) k ([rootNode p], ∅) =
      some cfg)
    {node : SNode σ α κ} {rest : List (SNode σ α κ)}
    (hpop : popMin (memoize f) cfg.1 = some (node, rest))
    {pre post : List (SNode σ α κ)} {c : SNode σ α κ}
    (hsplit : node.expand p = pre ++ c :: post) :
    (c.state ∉ insert node.state cfg.2 →
      c.state ∉ (pre.foldl (bestHandleChild (memoize f)
          (insert node.state cfg.2)) rest).map SNode.state →
      bestHandleChild (memoize f) (insert node.state cfg.2)
          (pre.foldl (bestHandleChild (memoize f)
            (insert node.state cfg.2)) rest) c =
        pre.foldl (bestHandleChild (memoize f)
          (insert node.state cfg.2)) rest ++ [c]) ∧
      (∀ q ∈ pre.foldl (bestHandleChild (memoize f)
          (insert node.state cfg.2)) rest, q.state = c.state →
        (memoize f c < memoize f q →
          bestHandleChild (memoize f) (insert node.state cfg.2)
              (pre.foldl (bestHandleChild (memoize f)
                (insert node.state cfg.2)) rest) c =
            pqErase (pre.foldl (bestHandleChild (memoize f)
              (insert node.state cfg.2)) rest) c ++ [c]) ∧
        (¬memoize f c < memoize f q →
          bestHandleChild (memoize f) (insert node.state cfg.2)
              (pre.foldl (bestHandleChild (memoize f)
                (insert node.state cfg.2)) rest) c =
            pre.foldl (bestHandleChild (memoize f)
              (insert node.state cfg.2)) rest)) ∧
      (c.state ∈ insert node.state cfg.2 →
        bestHandleChild (memoize f) (insert node.state cfg.2)
            (pre.foldl (bestHandleChild (memoize f)
              (insert node.state cfg.2)) rest) c =
          pre.foldl (bestHandleChild (memoize f)
            (insert node.state cfg.2)) rest) := by
  have inv : SearchInv p cfg.1 cfg.2 :=
    best_iterCfg_inv (f := memoize f) (SearchInv.init p) k cfg hcfg
  obtain ⟨hmem, hsub, hgone⟩ := popMin_some hpop
  have hgone' := hgone inv.nodup
  have hpremem : ∀ d ∈ pre, NodeOk p d := by
    intro d hd
    have : d ∈ node.expand p := hsplit ▸ List.mem_append_left _ hd
    obtain ⟨a, ha, rfl⟩ := SNode.mem_expand.mp this
    exact (inv.ok node hmem).child ha
  obtain ⟨hnd, hdisj, hok⟩ :=
    bestFold_inv (p := p) (f := memoize f)
      (E := insert node.state cfg.2) (C := pre) (F := rest)
      (inv.nodup.sublist (hsub.map _))
      (fun n hn => by
        simp only [Finset.mem_insert, not_or]
        exact ⟨fun hs => hgone' (hs ▸ List.mem_map_of_mem SNode.state hn),
          inv.disj n (hsub.mem hn)⟩)
      (fun n hn => inv.ok n (hsub.mem hn)) hpremem
  set ex' := insert node.state cfg.2 with hex'
  set frc := pre.foldl (bestHandleChild (memoize f) ex') rest with hfrc
  refine ⟨?_, ?_, ?_⟩
  · intro hnex hnfr
    rw [bestHandleChild, if_pos ⟨hnex, containsState_false.mpr hnfr⟩]
  · intro q hq hqs
    have hcs : containsState frc c.state = true :=
      containsState_iff.mpr (hqs ▸ List.mem_map_of_mem SNode.state hq)
    have hlook : pqLookup (memoize f) frc c = some (memoize f q) := by
      rw [pqLookup, find_state_of_nodup hnd hq hqs]
      rfl
    constructor
    · intro hlt
      rw [bestHandleChild, if_neg (by simp [hcs]), if_pos hcs]
      simp only [hlook]
      rw [if_pos hlt]
    · intro hlt
      rw [bestHandleChild, if_neg (by simp [hcs]), if_pos hcs]
      simp only [hlook]
      rw [if_neg hlt]
  · intro hex
    have hcs : containsState frc c.state = false := by
      rw [containsState_false]
      intro hmemfr
      obtain ⟨q, hq, hqs⟩ := List.mem_map.mp hmemfr
      exact hdisj q hq (hqs ▸ hex)
    rw [bestHandleChild, if_neg (by simp [hex]), if_neg (by simp [hcs])]

/-- **C3.**  For each of the three search algorithms: at every loop
boundary the frontier holds at most one entry per state, and any
explored-state count the algorithm returns is at most the number of
distinct reachable states. -/
theorem C3_frontier_dedup_and_explored_bound [DecidableEq σ]
    [LinearOrder σ] [LinearOrder ν] [Zero κ] (p : SProblem σ α κ)
    (f : SNode σ α κ → ν) (R : Finset σ)
    (hR : ∀ s, ReachableP p s ↔ s ∈ R) :
    ((∀ k cfg, iterCfg (dfsStep p) k ([rootNode p], ∅) = some cfg →
        (cfg.1.map SNode.state).Nodup) ∧
      ∀ fuel n k, (depth_first_graph_search p fuel = .found n k ∨
        depth_first_graph_search p fuel = .failure k) → k ≤ R.card) ∧
      ((∀ k cfg, iterCfg (bfsStep p) k ([rootNode p], ∅) = some cfg →
        (cfg.1.map SNode.state).Nodup) ∧
      ∀ fuel n k, (breadth_first_graph_search p fuel = .found n k ∨
        breadth_first_graph_search p fuel = .failure k) → k ≤ R.card) ∧
      (∀ k cfg, iterCfg (bestStep p (memoize f)) k ([rootNode p], ∅) =
        some cfg → (cfg.1.map SNode.state).Nodup) ∧
      ∀ fuel n k, (best_first_graph_search p f fuel = .found n k ∨
        best_first_graph_search p f fuel = .failure k) → k ≤ R.card := by
  have hRs : ∀ s, ReachableP p s → s ∈ R := fun s hs => (hR s).mp hs
  refine ⟨⟨?_, ?_⟩, ⟨?_, ?_⟩, ?_, ?_⟩
  · intro k cfg h
    exact (dfs_iterCfg_inv (SearchInv.init p) k cfg h).nodup
  · intro fuel n k h
    exact dfs_count_le (SearchInv.init p) hRs fuel n k h
  · intro k cfg h
    exact (bfs_iterCfg_inv (SearchInv.init p) k cfg h).nodup
  · intro fuel n k h
    by_cases hg : p.goal_test (rootNode p).state = true
    · rw [breadth_first_graph_search, if_pos hg] at h
      rcases h with h | h <;> cases h
    · rw [breadth_first_graph_search,
        if_neg (by simp [Bool.not_eq_true] at hg ⊢; exact hg)] at h
      exact bfs_count_le (SearchInv.init p) hRs fuel n k h
  · intro k cfg h
    exact (best_iterCfg_inv (f := memoize f) (SearchInv.init p)
      k cfg h).nodup
  · intro fuel n k h
    exact best_count_le (f := memoize f) (SearchInv.init p) hRs fuel n k h

end ClaimsBC

section ClaimC1

variable {σ α κ : Type} [DecidableEq σ] [Zero κ] {p : SProblem σ α κ}

/-- Full invariant of the `breadth_first_graph_search` loop (entered only
when the initial state fails the goal test).  `layers` packages the FIFO
structure: the queue is a block of depth-`d` nodes followed by a block of
depth-`d+1` nodes (the first block nonempty unless the queue is empty),
no goal state lies within distance `d` of the origin, and every non-goal
state within distance `d` is explored or queued. -/
structure BfsInv (p : SProblem σ α κ) (fr : List (SNode σ α κ))
    (ex : Finset σ) : Prop where
  base : SearchInv p fr ex
  nogoalFr : ∀ n ∈ fr, p.goal_test n.state = false
  nogoalEx : ∀ s ∈ ex, p.goal_test s = false
  mindepth : ∀ n ∈ fr, ∀ k, ReachN p p.initial n.state k → n.depth ≤ k
  initCov : p.initial ∈ ex ∨ p.initial ∈ fr.map SNode.state
  excl : ∀ s ∈ ex, ∀ a ∈ p.actions s,
    p.goal_test (p.result s a) = false ∧
      (p.result s a ∈ ex ∨ p.result s a ∈ fr.map SNode.state)
  layers : ∃ d A B, fr = A ++ B ∧ (A = [] → B = []) ∧
    (∀ n ∈ A, n.depth = d) ∧ (∀ n ∈ B, n.depth = d + 1) ∧
    (∀ s k, p.goal_test s = true → ReachN p p.initial s k → d < k) ∧
    ∀ s k, p.goal_test s = false → ReachN p p.initial s k → k ≤ d →
      s ∈ ex ∨ s ∈ fr.map SNode.state

/-- The BFS invariant at loop entry. -/
theorem BfsInv.start (hg : p.goal_test p.initial = false) :
    BfsInv p [rootNode p] (∅ : Finset σ) where
  base := SearchInv.init p
  nogoalFr := by
    intro n hn
    rw [List.mem_singleton.mp hn]
    exact hg
  nogoalEx := by simp
  mindepth := by
    intro n hn k _
    rw [List.mem_singleton.mp hn]
    exact Nat.zero_le k
  initCov := Or.inr (by
    simp only [List.map_cons, List.map_nil, List.mem_singleton]
    rfl)
  excl := by simp
  layers := by
    refine ⟨0, [rootNode p], [], by simp, by simp, ?_, by simp, ?_, ?_⟩
    · intro n hn
      rw [List.mem_singleton.mp hn]
      rfl
    · intro s k hgoal hw
      cases k with
      | zero =>
        cases hw
        rw [hg] at hgoal
        cases hgoal
      | succ k => exact Nat.succ_pos k
    · intro s k _ hw hk
      rw [Nat.le_zero.mp hk] at hw
      cases hw
      refine Or.inr ?_
      simp only [List.map_cons, List.map_nil, List.mem_singleton]
      rfl

/-- Mid-expansion invariant of the BFS child loop: the frontier is the
surviving depth-`d` block `S` followed by depth-`d+1` nodes, and the
usual per-node facts and the coverage of radius `d` hold. -/
structure BfsMid (p : SProblem σ α κ) (d : Nat) (E : Finset σ)
    (S : List (SNode σ α κ)) (fr : List (SNode σ α κ)) : Prop where
  split : ∃ G, fr = S ++ G ∧ ∀ n ∈ G, n.depth = d + 1
  nodup : (fr.map SNode.state).Nodup
  disj : ∀ n ∈ fr, n.state ∉ E
  ok : ∀ n ∈ fr, NodeOk p n
  nogoal : ∀ n ∈ fr, p.goal_test n.state = false
  mindepth : ∀ n ∈ fr, ∀ k, ReachN p p.initial n.state k → n.depth ≤ k
  cov : ∀ s k, p.goal_test s = false → ReachN p p.initial s k → k ≤ d →
    s ∈ E ∨ s ∈ fr.map SNode.state

/-- The BFS child loop, fully analysed: either it returns the first
fresh goal child — which then sits at minimal depth `d + 1` — or it
terminates with the invariant restored, having kept every old node and
left every child of this expansion non-goal and covered. -/
theorem bfs_fold {d : Nat} {E : Finset σ} {S : List (SNode σ α κ)}
    (goalfar : ∀ s k, p.goal_test s = true → ReachN p p.initial s k →
      d < k)
    (exnogoal : ∀ s ∈ E, p.goal_test s = false) :
    ∀ (cs fr : List (SNode σ α κ)),
      (∀ c ∈ cs, NodeOk p c ∧ c.depth = d + 1) →
      BfsMid p d E S fr →
      (∃ c ∈ cs, bfsChildren p cs fr E = .done (.found c E.card) ∧
        p.goal_test c.state = true ∧ NodeOk p c ∧ c.depth = d + 1 ∧
        ∀ k, ReachN p p.initial c.state k → c.depth ≤ k) ∨
      ∃ fr', bfsChildren p cs fr E = .next (fr', E) ∧
        BfsMid p d E S fr' ∧ (∀ n ∈ fr, n ∈ fr') ∧
        ∀ c ∈ cs, p.goal_test c.state = false ∧
          (c.state ∈ E ∨ c.state ∈ fr'.map SNode.state) := by
  intro cs
  induction cs with
  | nil =>
    intro fr _ hmid
    exact Or.inr ⟨fr, rfl, hmid, fun n hn => hn, by simp⟩
  | cons c cs ih =>
    intro fr hcs hmid
    have hcok := hcs c (List.mem_cons_self c cs)
    simp only [bfsChildren]
    by_cases h1 : c.state ∉ E ∧ containsState fr c.state = false
    · rw [if_pos h1]
      by_cases hgoal : p.goal_test c.state = true
      · rw [if_pos hgoal]
        refine Or.inl ⟨c, List.mem_cons_self c cs, rfl, hgoal, hcok.1,
          hcok.2, ?_⟩
        intro k hk
        rw [hcok.2]
        exact goalfar c.state k hgoal hk
      · rw [if_neg hgoal]
        rw [Bool.not_eq_true] at hgoal
        obtain ⟨G, hG, hGd⟩ := hmid.split
        have hmid' : BfsMid p d E S (fr ++ [c]) :=
          { split := ⟨G ++ [c], by rw [hG, List.append_assoc], by
              intro n hn
              rcases List.mem_append.mp hn with h | h
              · exact hGd n h
              · rw [List.mem_singleton.mp h]
                exact hcok.2⟩
            nodup := by
              rw [List.map_append]
              exact nodup_append_one hmid.nodup
                (containsState_false.mp h1.2)
            disj := by
              intro n hn
              rcases List.mem_append.mp hn with h | h
              · exact hmid.disj n h
              · rw [List.mem_singleton.mp h]
                exact h1.1
            ok := by
              intro n hn
              rcases List.mem_append.mp hn with h | h
              · exact hmid.ok n h
              · rw [List.mem_singleton.mp h]
                exact hcok.1
            nogoal := by
              intro n hn
              rcases List.mem_append.mp hn with h | h
              · exact hmid.nogoal n h
              · rw [List.mem_singleton.mp h]
                exact hgoal
            mindepth := by
              intro n hn k hk
              rcases List.mem_append.mp hn with h | h
              · exact hmid.mindepth n h k hk
              · rw [List.mem_singleton.mp h] at hk ⊢
                rw [hcok.2]
                by_contra hlt
                push_neg at hlt
                have hk' : k ≤ d := Nat.lt_succ_iff.mp hlt
                rcases hmid.cov c.state k hgoal hk hk' with hc | hc
                · exact h1.1 hc
                · exact containsState_false.mp h1.2 hc
            cov := by
              intro s k hs hw hk
              rcases hmid.cov s k hs hw hk with h | h
              · exact Or.inl h
              · refine Or.inr ?_
                rw [List.map_append]
                exact List.mem_append_left _ h }
        rcases ih (fr ++ [c])
            (fun e he => hcs e (List.mem_cons_of_mem c he)) hmid' with
          ⟨c', hc', he, hp1, hp2, hp3, hp4⟩ | ⟨fr', he, hmid'', hmono, hall⟩
        · exact Or.inl ⟨c', List.mem_cons_of_mem c hc', he, hp1, hp2,
            hp3, hp4⟩
        · refine Or.inr ⟨fr', he, hmid'',
            fun n hn => hmono n (List.mem_append_left _ hn), ?_⟩
          intro e he'
          rcases List.mem_cons.mp he' with rfl | he''
          · refine ⟨hgoal, Or.inr ?_⟩
            exact List.mem_map_of_mem SNode.state
              (hmono e (List.mem_append_right _ (List.mem_singleton_self e)))
          · exact hall e he''
    · rw [if_neg h1]
      have hcover : c.state ∈ E ∨ c.state ∈ fr.map SNode.state := by
        by_cases he : c.state ∈ E
        · exact Or.inl he
        · rcases Bool.eq_false_or_eq_true (containsState fr c.state) with
            ht | hf
          · exact Or.inr (containsState_iff.mp ht)
          · exact absurd ⟨he, hf⟩ h1
      have hcgoal : p.goal_test c.state = false := by
        rcases hcover with h | h
        · exact exnogoal _ h
        · obtain ⟨m, hm, hms⟩ := List.mem_map.mp h
          exact hms ▸ hmid.nogoal m hm
      rcases ih fr (fun e he => hcs e (List.mem_cons_of_mem c he))
          hmid with
        ⟨c', hc', he, hp1, hp2, hp3, hp4⟩ | ⟨fr', he, hmid'', hmono, hall⟩
      · exact Or.inl ⟨c', List.mem_cons_of_mem c hc', he, hp1, hp2,
          hp3, hp4⟩
      · refine Or.inr ⟨fr', he, hmid'', hmono, ?_⟩
        intro e he'
        rcases List.mem_cons.mp he' with rfl | he''
        · refine ⟨hcgoal, ?_⟩
          rcases hcover with h | h
          · exact Or.inl h
          · obtain ⟨m, hm, hms⟩ := List.mem_map.mp h
            exact Or.inr (hms ▸ List.mem_map_of_mem SNode.state
              (hmono m hm))
        · exact hall e he''

/-- One BFS iteration from a nonempty queue under the invariant: either
a goal child is returned whose depth is minimal over all walks to its
state, or the invariant is re-established with the popped state
explored. -/
theorem bfs_inv_step {node : SNode σ α κ} {rest : List (SNode σ α κ)}
    {ex : Finset σ} (inv : BfsInv p (node :: rest) ex) :
    (∃ c, bfsStep p (node :: rest, ex) =
        .done (.found c (insert node.state ex).card) ∧
      p.goal_test c.state = true ∧ NodeOk p c ∧
      ∀ k, ReachN p p.initial c.state k → c.depth ≤ k) ∨
    ∃ fr', bfsStep p (node :: rest, ex) =
        .next (fr', insert node.state ex) ∧
      BfsInv p fr' (insert node.state ex) := by
  obtain ⟨d, A, B, hfr, hnorm, hAd, hBd, hI6, hI4⟩ := inv.layers
  match A, hfr, hAd with
  | [], hfr, hAd =>
    rw [hnorm rfl] at hfr
    cases hfr
  | a :: A', hfr, hAd =>
  injection hfr with ha hrest
  subst ha
  have hnodemem : node ∈ node :: rest := List.mem_cons_self _ _
  have hnd : node.depth = d := hAd node (List.mem_cons_self _ _)
  have hexn : ∀ s ∈ insert node.state ex, p.goal_test s = false := by
    intro s hs
    rcases Finset.mem_insert.mp hs with rfl | hs
    · exact inv.nogoalFr node hnodemem
    · exact inv.nogoalEx s hs
  have hnost : node.state ∉ rest.map SNode.state :=
    (List.nodup_cons.mp inv.base.nodup).1
  have hmid0 : BfsMid p d (insert node.state ex) A' rest :=
    { split := ⟨B, hrest, hBd⟩
      nodup := (List.nodup_cons.mp inv.base.nodup).2
      disj := by
        intro n hn
        simp only [Finset.mem_insert, not_or]
        exact ⟨fun hs => hnost (hs ▸ List.mem_map_of_mem SNode.state hn),
          inv.base.disj n (List.mem_cons_of_mem node hn)⟩
      ok := fun n hn => inv.base.ok n (List.mem_cons_of_mem node hn)
      nogoal := fun n hn =>
        inv.nogoalFr n (List.mem_cons_of_mem node hn)
      mindepth := fun n hn =>
        inv.mindepth n (List.mem_cons_of_mem node hn)
      cov := by
        intro s k hs hw hk
        rcases hI4 s k hs hw hk with h | h
        · exact Or.inl (Finset.mem_insert_of_mem h)
        · rw [List.map_cons] at h
          rcases List.mem_cons.mp h with h | h
          · exact Or.inl (h ▸ Finset.mem_insert_self _ _)
          · exact Or.inr h }
  have hchildren : ∀ c ∈ node.expand p, NodeOk p c ∧ c.depth = d + 1 := by
    intro c hc
    obtain ⟨a', ha', rfl⟩ := SNode.mem_expand.mp hc
    exact ⟨(inv.base.ok node hnodemem).child ha',
      by rw [SNode.depth_child_node, hnd]⟩
  have hstepeq : bfsStep p (node :: rest, ex) =
      bfsChildren p (node.expand p) rest (insert node.state ex) := rfl
  rcases bfs_fold hI6 hexn (node.expand p) rest hchildren hmid0 with
    ⟨c, hc, he, hp1, hp2, hp3, hp4⟩ | ⟨fr', he, hmid', hmono, hall⟩
  · exact Or.inl ⟨c, by rw [hstepeq, he], hp1, hp2, hp4⟩
  · refine Or.inr ⟨fr', by rw [hstepeq, he], ?_⟩
    obtain ⟨G', hG', hGd'⟩ := hmid'.split
    have hexcl : ∀ s ∈ insert node.state ex, ∀ a ∈ p.actions s,
        p.goal_test (p.result s a) = false ∧
          (p.result s a ∈ insert node.state ex ∨
            p.result s a ∈ fr'.map SNode.state) := by
      intro s hs a ha
      rcases Finset.mem_insert.mp hs with rfl | hs
      · obtain ⟨c, hc, hcs⟩ := List.mem_map.mp (SNode.state_mem_expand ha)
        obtain ⟨h1, h2⟩ := hall c hc
        exact ⟨hcs ▸ h1, hcs ▸ h2⟩
      · obtain ⟨h1, h2⟩ := inv.excl s hs a ha
        refine ⟨h1, ?_⟩
        rcases h2 with h | h
        · exact Or.inl (Finset.mem_insert_of_mem h)
        · rw [List.map_cons] at h
          rcases List.mem_cons.mp h with h | h
          · exact Or.inl (h ▸ Finset.mem_insert_self _ _)
          · obtain ⟨m, hm, hms⟩ := List.mem_map.mp h
            exact Or.inr (hms ▸ List.mem_map_of_mem SNode.state
              (hmono m hm))
    refine
      { base :=
          { nodup := hmid'.nodup, disj := hmid'.disj, ok := hmid'.ok,
            exReach := by
              intro s hs
              rcases Finset.mem_insert.mp hs with rfl | hs
              · exact (inv.base.ok node hnodemem).reachable
              · exact inv.base.exReach s hs }
        nogoalFr := hmid'.nogoal
        nogoalEx := hexn
        mindepth := hmid'.mindepth
        initCov := ?_
        excl := hexcl
        layers := ?_ }
    · rcases inv.initCov with h | h
      · exact Or.inl (Finset.mem_insert_of_mem h)
      · rw [List.map_cons] at h
        rcases List.mem_cons.mp h with h | h
        · exact Or.inl (h ▸ Finset.mem_insert_self _ _)
        · obtain ⟨m, hm, hms⟩ := List.mem_map.mp h
          exact Or.inr (hms ▸ List.mem_map_of_mem SNode.state
            (hmono m hm))
    · by_cases hA' : A' = []
      · -- the depth-d block is exhausted: move to level d + 1
        rw [hA'] at hG'
        simp only [List.nil_append] at hG'
        have hall' : ∀ n ∈ fr', n.depth = d + 1 := by
          intro n hn
          exact hGd' n (hG' ▸ hn)
        have hstep1 : ∀ s, (∃ u a, ReachN p p.initial u d ∧
            a ∈ p.actions u ∧ p.result u a = s) →
            p.goal_test s = false ∧
              (s ∈ insert node.state ex ∨ s ∈ fr'.map SNode.state) := by
          rintro s ⟨u, a, hwu, hau, hru⟩
          have hug : p.goal_test u = false := by
            rcases Bool.eq_false_or_eq_true (p.goal_test u) with h | h
            · exact absurd (hI6 u d h hwu) (lt_irrefl d)
            · exact h
          rcases hmid'.cov u d hug hwu (le_refl d) with hE | hfr2
          · rcases Finset.mem_insert.mp hE with hun | hux
            · subst hru
              subst hun
              obtain ⟨c, hc, hcs⟩ :=
                List.mem_map.mp (SNode.state_mem_expand hau)
              obtain ⟨h1, h2⟩ := hall c hc
              exact ⟨hcs ▸ h1, hcs ▸ h2⟩
            · obtain ⟨h1, h2⟩ := inv.excl u hux a hau
              rw [hru] at h1 h2
              refine ⟨h1, ?_⟩
              rcases h2 with h | h
              · exact Or.inl (Finset.mem_insert_of_mem h)
              · rw [List.map_cons] at h
                rcases List.mem_cons.mp h with h | h
                · exact Or.inl (h ▸ Finset.mem_insert_self _ _)
                · obtain ⟨m, hm, hms⟩ := List.mem_map.mp h
                  exact Or.inr (hms ▸ List.mem_map_of_mem SNode.state
                    (hmono m hm))
          · exfalso
            obtain ⟨m, hm, hms⟩ := List.mem_map.mp hfr2
            have := hmid'.mindepth m hm d (hms ▸ hwu)
            rw [hall' m hm] at this
            exact absurd this (by simp)
        refine ⟨d + 1, fr', [], (List.append_nil fr').symm,
          fun _ => rfl, hall', by simp, ?_, ?_⟩
        · intro s k hsg hw
          have hdk : d < k := hI6 s k hsg hw
          by_contra hnk
          push_neg at hnk
          have hk1 : k = d + 1 := le_antisymm hnk hdk
          subst hk1
          obtain ⟨u, a, hwu, hau, hru⟩ := ReachN.unsnoc hw
          have := (hstep1 s ⟨u, a, hwu, hau, hru⟩).1
          rw [hsg] at this
          cases this
        · intro s k hsg hw hk
          rcases Nat.lt_succ_iff_lt_or_eq.mp (Nat.lt_succ_of_le hk) with
            hlt | heq
          · exact hmid'.cov s k hsg hw (Nat.lt_succ_iff.mp hlt)
          · subst heq
            obtain ⟨u, a, hwu, hau, hru⟩ := ReachN.unsnoc hw
            exact (hstep1 s ⟨u, a, hwu, hau, hru⟩).2
      · -- the depth-d block survives
        refine ⟨d, A', G', hG', fun h => absurd h hA', ?_,
          hGd', hI6, hmid'.cov⟩
        intro n hn
        exact hAd n (List.mem_cons_of_mem _ hn)

/-- With an empty frontier the invariant closes the explored set under
expansion, so no goal state can be reachable. -/
theorem bfs_empty_no_goal {ex : Finset σ} (inv : BfsInv p [] ex)
    {s : σ} {k : Nat} (hg : p.goal_test s = true)
    (hw : ReachN p p.initial s k) : False := by
  have main : ∀ k s, ReachN p p.initial s k →
      s ∈ ex ∧ p.goal_test s = false := by
    intro k
    induction k with
    | zero =>
      intro s hw
      cases hw
      rcases inv.initCov with h | h
      · exact ⟨h, inv.nogoalEx _ h⟩
      · simp at h
    | succ m ih =>
      intro s hw
      obtain ⟨u, a, hwu, hau, hru⟩ := ReachN.unsnoc hw
      obtain ⟨hu, _⟩ := ih u hwu
      obtain ⟨h1, h2⟩ := inv.excl u hu a hau
      rw [hru] at h1 h2
      rcases h2 with h | h
      · exact ⟨h, h1⟩
      · simp at h
  obtain ⟨_, hng⟩ := main k s hw
  rw [hg] at hng
  cases hng

/-- The BFS loop: when a goal state is reachable and the fuel exceeds
the number of distinct states, the loop returns a goal node whose depth
is minimal over all walks to its state. -/
theorem bfs_loop (R : Finset σ) (hinit : p.initial ∈ R)
    (hclosed : ∀ u ∈ R, ∀ a ∈ p.actions u, p.result u a ∈ R)
    (hreach : ∃ s k, p.goal_test s = true ∧ ReachN p p.initial s k) :
    ∀ fuel (fr : List (SNode σ α κ)) (ex : Finset σ),
      BfsInv p fr ex → R.card + 1 ≤ fuel + ex.card →
      ∃ c k', iterate (bfsStep p) fuel (fr, ex) = .found c k' ∧
        p.goal_test c.state = true ∧ NodeOk p c ∧
        ∀ m, ReachN p p.initial c.state m → c.depth ≤ m := by
  intro fuel
  induction fuel with
  | zero =>
    intro fr ex inv hfuel
    exfalso
    have hsub : ex ⊆ R := fun s hs => by
      obtain ⟨n, hn⟩ := inv.base.exReach s hs
      exact hn.mem_closed hclosed hinit
    have := Finset.card_le_card hsub
    omega
  | succ fuel ih =>
    intro fr ex inv hfuel
    match fr with
    | [] =>
      obtain ⟨s, k, hg, hw⟩ := hreach
      exact (bfs_empty_no_goal inv hg hw).elim
    | node :: rest =>
      rcases bfs_inv_step inv with ⟨c, he, hp1, hp2, hp4⟩ |
        ⟨fr', he, inv'⟩
      · refine ⟨c, (insert node.state ex).card, ?_, hp1, hp2, hp4⟩
        rw [iterate, he]
      · have hnotmem : node.state ∉ ex :=
          inv.base.disj node (List.mem_cons_self _ _)
        have hcard : (insert node.state ex).card = ex.card + 1 :=
          Finset.card_insert_of_not_mem hnotmem
        have hrec := ih fr' (insert node.state ex) inv' (by omega)
        rw [iterate, he]
        exact hrec

end ClaimC1

section ClaimC1G

variable {ν : Type} [DecidableEq ν]

/-- The node-id set of a graph: edge sources and edge targets. -/
def Graph.nodeFinset (g : Graph ν) : Finset ν :=
  (g.graph_dict.map Prod.fst).toFinset ∪
    (g.graph_dict.flatMap fun e => e.2.map Prod.fst).toFinset

/-- `GraphProblem.actions` offers exactly the edge targets. -/
theorem mem_actions_iff (p : GraphProblem ν) (s b : ν) :
    b ∈ p.toS.actions s ↔ ∃ w, p.graph.get₂ s b = some w := by
  show b ∈ (p.graph.get s).map Prod.fst ↔
    ∃ w, alook (p.graph.get s) b = some w
  constructor
  · intro hb
    obtain ⟨⟨b', w⟩, hmem, hb'⟩ := List.mem_map.mp hb
    cases hb'
    exact mem_alook_isSome hmem
  · rintro ⟨w, hw⟩
    exact List.mem_map_of_mem Prod.fst (alook_mem hw)

theorem actions_mem_nodeFinset (p : GraphProblem ν) {s b : ν}
    (hb : b ∈ p.toS.actions s) : b ∈ p.graph.nodeFinset := by
  obtain ⟨w, hw⟩ := (mem_actions_iff p s b).mp hb
  unfold Graph.get₂ Graph.get at hw
  rcases hd : alook p.graph.graph_dict s with _ | l
  · rw [hd] at hw
    simp at hw
  · rw [hd] at hw
    simp only [Option.getD_some] at hw
    refine Finset.mem_union_right _ ?_
    rw [List.mem_toFinset, List.mem_flatMap]
    exact ⟨(s, l), alook_mem hd,
      List.mem_map_of_mem Prod.fst (alook_mem hw)⟩

/-- Graph walks and abstract problem walks coincide for a
`GraphProblem`. -/
theorem gwalk_iff_reach (p : GraphProblem ν) (s t : ν) (n : Nat) :
    GWalk p.graph s t n ↔ ReachN p.toS s t n := by
  constructor
  · intro h
    induction h with
    | refl a => exact ReachN.refl a
    | step hw _ ih =>
      exact ReachN.step ((mem_actions_iff p _ _).mpr ⟨_, hw⟩) rfl ih
  · intro h
    induction h with
    | refl s => exact GWalk.refl s
    | @step s t u n a ha hr _ ih =>
      obtain ⟨w, hw⟩ := (mem_actions_iff p _ _).mp ha
      have ha' : a = t := hr
      exact GWalk.step (ha' ▸ hw) ih

/-- **C1.**  On a graph whose edge weights are all the unit cost 1, for
any origin and goal joined by some path, `breadth_first_graph_search` on
the corresponding `GraphProblem` (with enough fuel for its terminating
loop) returns a goal node whose `path()` has minimal edge count among
all paths from origin to goal — and that edge count is attained by an
actual path. -/
theorem C1_bfs_shortest_path (g : Graph ν) (origin goal : ν)
    (hunit : ∀ a b w, g.get₂ a b = some w → w = 1)
    (hpath : ∃ n, GWalk g origin goal n) (fuel : Nat)
    (hfuel : (insert origin g.nodeFinset).card + 1 ≤ fuel) :
    ∃ nd : SNode ν ν (WithTop Int),
      (breadth_first_graph_search
          (GraphProblem.mk origin (.one goal) g).toS fuel =
            .foundInit nd ∨
        ∃ k, breadth_first_graph_search
          (GraphProblem.mk origin (.one goal) g).toS fuel =
            .found nd k) ∧
      nd.state = goal ∧ GWalk g origin goal (nd.path.length - 1) ∧
      ∀ m, GWalk g origin goal m → nd.path.length - 1 ≤ m := by
  set p := GraphProblem.mk origin (.one goal) g with hp
  set P := p.toS with hP
  have hgt : ∀ s, P.goal_test s = true ↔ s = goal := by
    intro s
    show p.goal_test s = true ↔ s = goal
    simp [GraphProblem.goal_test, hp]
  by_cases hg : P.goal_test P.initial = true
  · have hog : origin = goal := (hgt origin).mp hg
    have hbfs : breadth_first_graph_search P fuel =
        .foundInit (rootNode P) := by
      unfold breadth_first_graph_search
      rw [if_pos (show P.goal_test (rootNode P).state = true from hg)]
    have hlen : (rootNode P).path.length = 1 := by
      simp [rootNode, SNode.new, SNode.path, SNode.pathBack]
    refine ⟨rootNode P, Or.inl hbfs, hog, ?_, ?_⟩
    · rw [hlen]
      exact hog ▸ GWalk.refl origin
    · intro m _
      rw [hlen]
      simp
  · rw [Bool.not_eq_true] at hg
    have hinv := BfsInv.start (p := P) hg
    obtain ⟨n0, hw0⟩ := hpath
    have hreach : ∃ s k, P.goal_test s = true ∧ ReachN P P.initial s k :=
      ⟨goal, n0, (hgt goal).mpr rfl,
        (gwalk_iff_reach p origin goal n0).mp hw0⟩
    have hclosed : ∀ u ∈ insert origin g.nodeFinset,
        ∀ a ∈ P.actions u, P.result u a ∈ insert origin g.nodeFinset := by
      intro u _ a ha
      exact Finset.mem_insert_of_mem (actions_mem_nodeFinset p ha)
    obtain ⟨c, k', hit, hcg, hcok, hcmin⟩ :=
      bfs_loop (insert origin g.nodeFinset) (Finset.mem_insert_self _ _)
        hclosed hreach fuel [rootNode P] ∅ hinv (by simpa using hfuel)
    have hbfs : breadth_first_graph_search P fuel = .found c k' := by
      have hgr : P.goal_test (rootNode P).state = false := hg
      unfold breadth_first_graph_search
      rw [if_neg (by rw [hgr]; simp)]
      exact hit
    have hcg' : c.state = goal := (hgt _).mp hcg
    have hlen : c.path.length = c.depth + 1 := hcok.path_length
    refine ⟨c, Or.inr ⟨k', hbfs⟩, hcg', ?_, ?_⟩
    · rw [hlen]
      simp only [Nat.add_sub_cancel]
      exact (gwalk_iff_reach p origin goal c.depth).mpr
        (hcg' ▸ hcok.reach)
    · intro m hm
      rw [hlen]
      simp only [Nat.add_sub_cancel]
      exact hcmin m (hcg' ▸ (gwalk_iff_reach p origin goal m).mp hm)

end ClaimC1G

/-- Graph used by the C1 witness: `1 → 2 → 3` plus the longer detour
`1 → 4 → 5 → 3`, all unit weights. -/
def gW1 : Graph Int :=
  { graph_dict :=
      [(1, [(4, 1), (2, 1)]), (2, [(3, 1)]), (4, [(5, 1)]),
        (5, [(3, 1)])] }

/-- Witness for C1: BFS on `gW1` from `1` to `3` returns a minimal
path. -/
theorem C1_witness :
    ((∀ a b w, gW1.get₂ a b = some w → w = 1) ∧
      (∃ n, GWalk gW1 1 3 n) ∧
      (insert (1 : Int) gW1.nodeFinset).card + 1 ≤ 12) ∧
      ∃ nd : SNode Int Int (WithTop Int),
        (breadth_first_graph_search
            (GraphProblem.mk 1 (.one 3) gW1).toS 12 = .foundInit nd ∨
          ∃ k, breadth_first_graph_search
            (GraphProblem.mk 1 (.one 3) gW1).toS 12 = .found nd k) ∧
        nd.state = 3 ∧ GWalk gW1 1 3 (nd.path.length - 1) ∧
        ∀ m, GWalk gW1 1 3 m → nd.path.length - 1 ≤ m := by
  have hunit : ∀ a b w, gW1.get₂ a b = some w → w = 1 := by
    intro a b w h
    unfold Graph.get₂ Graph.get at h
    rcases hd : alook gW1.graph_dict a with _ | l
    · rw [hd] at h
      simp at h
    · rw [hd] at h
      simp only [Option.getD_some] at h
      have hall : ∀ x ∈ gW1.graph_dict, ∀ y ∈ x.2, y.2 = 1 := by decide
      exact hall (a, l) (alook_mem hd) (b, w) (alook_mem h)
  have hpath : ∃ n, GWalk gW1 1 3 n :=
    ⟨2, GWalk.step (show gW1.get₂ 1 2 = some 1 by decide)
      (GWalk.step (show gW1.get₂ 2 3 = some 1 by decide)
        (GWalk.refl 3))⟩
  have hfuel : (insert (1 : Int) gW1.nodeFinset).card + 1 ≤ 12 := by
    decide
  exact ⟨⟨hunit, hpath, hfuel⟩,
    C1_bfs_shortest_path gW1 1 3 hunit hpath 12 hfuel⟩

section ClaimC9

variable {ν β γ : Type} [DecidableEq ν]

theorem alook_aset_self (l : List (ν × β)) (a : ν) (b : β) :
    alook (aset l a b) a = some b := by
  induction l with
  | nil => simp [aset, alook_cons]
  | cons kv t ih =>
    obtain ⟨k, v⟩ := kv
    simp only [aset]
    by_cases hk : k = a
    · rw [if_pos hk, alook_cons, if_pos rfl]
    · rw [if_neg hk, alook_cons, if_neg hk]
      exact ih

theorem alook_aset_other (l : List (ν × β)) {a x : ν} (h : x ≠ a) (b : β) :
    alook (aset l a b) x = alook l x := by
  induction l with
  | nil =>
    show alook [(a, b)] x = alook [] x
    rw [alook_cons, if_neg fun he => h he.symm, alook_nil]
  | cons kv t ih =>
    obtain ⟨k, v⟩ := kv
    simp only [aset]
    by_cases hk : k = a
    · rw [if_pos hk, alook_cons, alook_cons, hk,
        if_neg fun he => h he.symm, if_neg fun he => h he.symm]
    · rw [if_neg hk, alook_cons, alook_cons]
      by_cases hx : k = x
      · rw [if_pos hx, if_pos hx]
      · rw [if_neg hx, if_neg hx]
        exact ih

/-- The effect of `connect1` on the observable edge weights: it sets the
one edge `(A, B)` and changes nothing else. -/
theorem get₂_connect1 (g : Graph ν) (A B : ν) (w : Int) (x y : ν) :
    (g.connect1 A B w).get₂ x y =
      if x = A ∧ y = B then some w else g.get₂ x y := by
  by_cases hx : x = A
  · subst hx
    by_cases hy : y = B
    · subst hy
      rw [if_pos ⟨rfl, rfl⟩]
      unfold Graph.connect1 Graph.get₂ Graph.get
      rcases hA : alook g.graph_dict x with _ | links <;> simp only [hA]
      · rw [alook_append_one, hA]
        simp only [Option.none_or, eq_self_iff_true, if_true,
          Option.getD_some]
        rw [alook_cons, if_pos rfl]
      · rw [alook_aset_self]
        simp only [Option.getD_some]
        rw [alook_aset_self]
    · rw [if_neg fun hc => hy hc.2]
      unfold Graph.connect1 Graph.get₂ Graph.get
      rcases hA : alook g.graph_dict x with _ | links <;> simp only [hA]
      · rw [alook_append_one, hA]
        simp only [Option.none_or, eq_self_iff_true, if_true,
          Option.getD_some]
        rw [alook_cons, if_neg fun he => hy he.symm, alook_nil]
        rfl
      · rw [alook_aset_self]
        simp only [Option.getD_some]
        rw [alook_aset_other _ hy]
  · rw [if_neg fun hc => hx hc.1]
    unfold Graph.connect1 Graph.get₂ Graph.get
    rcases hA : alook g.graph_dict A with _ | links <;> simp only [hA]
    · rw [alook_append_one, if_neg fun he => hx he.symm]
      simp
    · rw [alook_aset_other _ hx]

theorem foldl_ite_filter (q : γ → Prop) [DecidablePred q] (f : β → γ → β)
    (l : List γ) (b : β) :
    l.foldl (fun x a => if q a then f x a else x) b =
      (l.filter fun a => decide (q a)).foldl f b := by
  induction l generalizing b with
  | nil => rfl
  | cons a l ih =>
    by_cases h : q a
    · rw [List.foldl_cons, if_pos h,
        List.filter_cons_of_pos (by simpa using h), List.foldl_cons]
      exact ih (f b a)
    · rw [List.foldl_cons, if_neg h,
        List.filter_cons_of_neg (by simpa using h)]
      exact ih b

/-- Folding `connect1` over a key-duplicate-free list of edge triples:
the final weight of `(x, y)` is its declared weight, or whatever the
starting graph had when `(x, y)` is not among the triples. -/
theorem foldl_connect_get₂ (T : List ((ν × ν) × Int)) (g : Graph ν)
    (hnd : (T.map Prod.fst).Nodup) (x y : ν) (w : Int) :
    (T.foldl (fun g ec => g.connect1 ec.1.1 ec.1.2 ec.2) g).get₂ x y =
        some w ↔
      ((x, y), w) ∈ T ∨
        ((x, y) ∉ T.map Prod.fst ∧ g.get₂ x y = some w) := by
  induction T generalizing g with
  | nil => simp
  | cons ec rest ih =>
    obtain ⟨⟨A, B⟩, wc⟩ := ec
    simp only [List.map_cons, List.nodup_cons] at hnd
    rw [List.foldl_cons, ih _ hnd.2]
    by_cases hkey : (x, y) = (A, B)
    · injection hkey with h1 h2
      subst h1
      subst h2
      have hnr : ∀ v : Int, ((x, y), v) ∉ rest := fun v hc =>
        hnd.1 (List.mem_map_of_mem Prod.fst hc)
      have hnk : (x, y) ∉ rest.map Prod.fst := hnd.1
      rw [get₂_connect1, if_pos (⟨rfl, rfl⟩ : x = x ∧ y = y)]
      constructor
      · rintro (hc | ⟨_, hc⟩)
        · exact absurd hc (hnr w)
        · cases hc
          exact Or.inl (List.mem_cons_self _ _)
      · rintro (hc | ⟨hc, _⟩)
        · rcases List.mem_cons.mp hc with he | he
          · cases he
            exact Or.inr ⟨hnk, rfl⟩
          · exact absurd he (hnr w)
        · exact absurd (List.mem_cons_self _ _) hc
    · rw [get₂_connect1, if_neg fun hc => hkey (by rw [hc.1, hc.2])]
      have hne : ((x, y), w) ≠ ((A, B), wc) := fun hc => by
        injection hc with hc1 _
        exact hkey hc1
      constructor
      · rintro (hc | ⟨hc, hg⟩)
        · exact Or.inl (List.mem_cons_of_mem _ hc)
        · refine Or.inr ⟨?_, hg⟩
          simp only [List.map_cons, List.mem_cons, not_or]
          exact ⟨hkey, hc⟩
      · rintro (hc | ⟨hc, hg⟩)
        · rcases List.mem_cons.mp hc with he | he
          · exact absurd he hne
          · exact Or.inl he
        · simp only [List.map_cons, List.mem_cons, not_or] at hc
          exact Or.inr ⟨hc.2, hg⟩

/-- The edge triples `buildGraph` actually connects, in order. -/
def buildTriples (st : LoadState) : List ((Int × Int) × Int) :=
  st.nodes.flatMap fun nc =>
    st.edges.filter fun ec => decide (ec.1.1 = nc.1)

theorem nested_fold_eq (ns : List (Int × (Int × Int)))
    (es : List ((Int × Int) × Int)) (g : Graph Int) :
    ns.foldl (fun g nc => es.foldl
        (fun g ec => if ec.1.1 = nc.1 then g.connect1 ec.1.1 ec.1.2 ec.2
         else g) g) g =
      (ns.flatMap fun nc =>
        es.filter fun ec => decide (ec.1.1 = nc.1)).foldl
        (fun g ec => g.connect1 ec.1.1 ec.1.2 ec.2) g := by
  induction ns generalizing g with
  | nil => rfl
  | cons nc rest ih =>
    rw [List.foldl_cons, List.flatMap_cons, List.foldl_append, ← ih]
    rw [foldl_ite_filter (fun ec => ec.1.1 = nc.1) _ es g]

theorem buildGraph_eq_fold (st : LoadState) :
    buildGraph st =
      { (buildTriples st).foldl
          (fun g ec => g.connect1 ec.1.1 ec.1.2 ec.2)
          ({ graph_dict := [] } : Graph Int) with
        locations := some st.nodes } := by
  unfold buildGraph buildTriples
  rw [nested_fold_eq]

theorem mem_buildTriples {st : LoadState} {e : (Int × Int) × Int}
    (hsrc : ∀ e ∈ st.edges, e.1.1 ∈ st.nodes.map Prod.fst) :
    e ∈ buildTriples st ↔ e ∈ st.edges := by
  unfold buildTriples
  rw [List.mem_flatMap]
  constructor
  · rintro ⟨nc, _, he⟩
    exact (List.mem_filter.mp he).1
  · intro he
    obtain ⟨nc, hnc, hfst⟩ := List.mem_map.mp (hsrc e he)
    exact ⟨nc, hnc, List.mem_filter.mpr ⟨he, by simp [hfst]⟩⟩

theorem buildTriples_keys_nodup {st : LoadState}
    (hnd : (st.nodes.map Prod.fst).Nodup)
    (hed : (st.edges.map Prod.fst).Nodup) :
    ((buildTriples st).map Prod.fst).Nodup := by
  unfold buildTriples
  rw [List.map_flatMap, List.nodup_flatMap]
  constructor
  · intro nc _
    exact hed.sublist ((List.filter_sublist _).map _)
  · have hpw : st.nodes.Pairwise fun a b => a.1 ≠ b.1 :=
      List.pairwise_map.mp hnd
    refine hpw.imp ?_
    intro a b hab k hka hkb
    obtain ⟨e1, he1, hk1⟩ := List.mem_map.mp hka
    obtain ⟨e2, he2, hk2⟩ := List.mem_map.mp hkb
    have h1 : e1.1.1 = a.1 := by simpa using (List.mem_filter.mp he1).2
    have h2 : e2.1.1 = b.1 := by simpa using (List.mem_filter.mp he2).2
    exact hab (by rw [← h1, ← h2, hk1, hk2])

/-- **C9.**  For a well-formed input file — one the loader parses
successfully, with no duplicate node or edge declarations and every
declared edge's source among the declared nodes — `load_graph_from_file`
produces a graph whose directed edges are exactly the declared ones with
their declared weights (none dropped, none added, no reverse edge
inferred), together with a `locations` mapping taking each declared
node-id to its declared coordinate pair. -/
theorem C9_loader_exact (lines : List String) (st : LoadState)
    (hload : loadLoop lines none {} = some st)
    (hnd : (st.nodes.map Prod.fst).Nodup)
    (hed : (st.edges.map Prod.fst).Nodup)
    (hsrc : ∀ e ∈ st.edges, e.1.1 ∈ st.nodes.map Prod.fst) :
    ∃ g o d, load_graph_from_file lines = some (g, o, d) ∧
      (∀ a b w, g.get₂ a b = some w ↔ ((a, b), w) ∈ st.edges) ∧
      g.locations = some st.nodes ∧
      ∀ n xy, (n, xy) ∈ st.nodes → alook st.nodes n = some xy := by
  refine ⟨buildGraph st, st.origin, st.destinations, ?_, ?_, ?_, ?_⟩
  · rw [load_graph_from_file, hload]
    rfl
  · intro a b w
    rw [buildGraph_eq_fold]
    have hsame : ∀ G : Graph Int,
        Graph.get₂ { G with locations := some st.nodes } a b =
          G.get₂ a b := fun G => rfl
    rw [hsame, foldl_connect_get₂ _ _ (buildTriples_keys_nodup hnd hed)]
    constructor
    · rintro (hc | ⟨_, hc⟩)
      · exact (mem_buildTriples hsrc).mp hc
      · simp [Graph.get₂, Graph.get, alook] at hc
    · intro hc
      exact Or.inl ((mem_buildTriples hsrc).mpr hc)
  · rw [buildGraph_eq_fold]
  · intro n xy h
    exact (alook_eq_some_iff_of_nodup hnd).mpr h

end ClaimC9

/-- Lines of the file used by the C9 witness. -/
def linesW9 : List String :=
  ["Nodes:", "1: (0,0)", "2: (1,1)", "Edges:", "(1,2): 3",
   "Origin:", "1", "Destinations:", "2"]

/-- The parsed sections of `linesW9`. -/
def stW9 : LoadState :=
  { nodes := [(1, (0, 0)), (2, (1, 1))], edges := [((1, 2), 3)],
    origin := some 1, destinations := [2] }

/-- Witness for C9 on a concrete two-node, one-edge file. -/
theorem C9_witness :
    (loadLoop linesW9 none {} = some stW9 ∧
      ((stW9.nodes.map Prod.fst).Nodup ∧
        (stW9.edges.map Prod.fst).Nodup) ∧
      ∀ e ∈ stW9.edges, e.1.1 ∈ stW9.nodes.map Prod.fst) ∧
      ∃ g o d, load_graph_from_file linesW9 = some (g, o, d) ∧
        (∀ a b w, g.get₂ a b = some w ↔ ((a, b), w) ∈ stW9.edges) ∧
        g.locations = some stW9.nodes ∧
        ∀ n xy, (n, xy) ∈ stW9.nodes → alook stW9.nodes n = some xy := by
  have h1 : loadLoop linesW9 none {} = some stW9 := by decide
  have h2 : (stW9.nodes.map Prod.fst).Nodup := by decide
  have h3 : (stW9.edges.map Prod.fst).Nodup := by decide
  have h4 : ∀ e ∈ stW9.edges, e.1.1 ∈ stW9.nodes.map Prod.fst := by decide
  exact ⟨⟨h1, ⟨h2, h3⟩, h4⟩, C9_loader_exact linesW9 stW9 h1 h2 h3 h4⟩

section ClaimC8

variable {ν : Type} [DecidableEq ν]

/-- `Graph.get(a)`'s `setdefault` can grow the dict, but it never changes
the value any later `get` observes, and never touches `locations`. -/
theorem getS_preserves (g : Graph ν) (a : ν) :
    (∀ x, (g.getS a).2.get x = g.get x) ∧
      (g.getS a).2.locations = g.locations := by
  constructor
  · intro x
    show Graph.get { g with graph_dict := (asetd g.graph_dict a []).2 } x =
      g.get x
    unfold Graph.get asetd
    rcases h : alook g.graph_dict a with _ | l
    · simp only [h, alook_append_one]
      rcases hx : alook g.graph_dict x with _ | lx
      · by_cases hax : a = x <;> simp [hax]
      · simp
    · simp [h]
  · show Graph.locations { g with graph_dict := (asetd g.graph_dict a []).2 } =
      g.locations
    rfl

theorem getS₂_preserves (g : Graph ν) (a b : ν) :
    (∀ x, (g.getS₂ a b).2.get x = g.get x) ∧
      (g.getS₂ a b).2.locations = g.locations :=
  getS_preserves g a

/-- Expansion reads the graph through `getS`/`getS₂` only: the observable
adjacency and the locations are unchanged. -/
theorem expandS_preserves (g : Graph ν) (n : SNode ν ν (WithTop Int)) :
    (∀ x, (expandS g n).2.get x = g.get x) ∧
      (expandS g n).2.locations = g.locations := by
  unfold expandS
  obtain ⟨h1, h2⟩ := getS_preserves g n.state
  rcases hg : g.getS n.state with ⟨links, g₁⟩
  rw [hg] at h1 h2
  have main : ∀ (acts : List ν) (acc : List (SNode ν ν (WithTop Int)) ×
      Graph ν),
      (∀ x, (acts.foldl (fun acc a =>
          ((acc.1 ++ [SNode.new a (some n) (some a)
            (n.path_cost + orInf (acc.2.getS₂ n.state a).1)],
            (acc.2.getS₂ n.state a).2))) acc).2.get x = acc.2.get x) ∧
        (acts.foldl (fun acc a =>
          ((acc.1 ++ [SNode.new a (some n) (some a)
            (n.path_cost + orInf (acc.2.getS₂ n.state a).1)],
            (acc.2.getS₂ n.state a).2))) acc).2.locations =
          acc.2.locations := by
    intro acts
    induction acts with
    | nil => exact fun acc => ⟨fun x => rfl, rfl⟩
    | cons a acts ih =>
      intro acc
      obtain ⟨p1, p2⟩ := getS₂_preserves acc.2 n.state a
      obtain ⟨q1, q2⟩ := ih ((acc.1 ++ [SNode.new a (some n) (some a)
        (n.path_cost + orInf (acc.2.getS₂ n.state a).1)],
        (acc.2.getS₂ n.state a).2))
      exact ⟨fun x => (q1 x).trans (p1 x), q2.trans p2⟩
  obtain ⟨m1, m2⟩ := main (links.map Prod.fst) ([], g₁)
  exact ⟨fun x => (m1 x).trans (h1 x), m2.trans h2⟩

/-- The stateful DFS run only changes the graph through `getS`: the
observable adjacency and the locations are unchanged. -/
theorem dfsRunS_preserves (p : GraphProblem ν) (fuel : Nat) :
    ∀ (fr : List (SNode ν ν (WithTop Int))) (ex : Finset ν) (g : Graph ν),
      (∀ x, (dfsRunS p fuel fr ex g).2.get x = g.get x) ∧
        (dfsRunS p fuel fr ex g).2.locations = g.locations := by
  induction fuel with
  | zero => exact fun fr ex g => ⟨fun x => rfl, rfl⟩
  | succ fuel ih =>
    intro fr ex g
    unfold dfsRunS
    rcases hlast : fr.getLast? with _ | node
    · simp [hlast]
    · by_cases hgoal : p.goal_test node.state = true
      · simp [hlast, hgoal]
      · simp only [hlast, if_neg hgoal]
        obtain ⟨e1, e2⟩ := expandS_preserves g node
        rcases hx : expandS g node with ⟨children, g'⟩
        rw [hx] at e1 e2
        obtain ⟨r1, r2⟩ := ih
          (dfsExtend (insert node.state ex) children fr.dropLast)
          (insert node.state ex) g'
        exact ⟨fun x => (r1 x).trans (e1 x), r2.trans e2⟩

/-- The graph exhibiting C8's divergence: node `2` has no adjacency
entry, so the first expansion's `get(2)` inserts one. -/
def gC8 : Graph Int := { graph_dict := [(1, [(2, 1)])] }

/-- The `GraphProblem` over `gC8`, searched from `2`. -/
def pC8 : GraphProblem Int := { initial := 2, goal := .one 1, graph := gC8 }

/-- **C8 counterexample.**  A complete DFS run over `gC8` ends with an
adjacency dict that differs from the one it started with: `setdefault`
inside `Graph.get` has inserted the empty entry `2: {}`. -/
theorem C8_search_mutates_graph_dict :
    (depth_first_graph_searchS pC8 3).2.graph_dict =
        [(1, [(2, 1)]), (2, [])] ∧
      (depth_first_graph_searchS pC8 3).2.graph_dict ≠
        pC8.graph.graph_dict := by
  decide

/-- **C8 (amended).**  Searches can mutate the adjacency dict — `get`'s
`setdefault` inserts empty entries for queried missing keys — but the
mutation is observationally invisible: after any stateful DFS run (and
after any single `get` call) every `get` observation and the `locations`
attribute are exactly as before. -/
theorem C8_search_graph_observational (p : GraphProblem ν) (fuel : Nat) :
    ((∀ x, (depth_first_graph_searchS p fuel).2.get x = p.graph.get x) ∧
      (depth_first_graph_searchS p fuel).2.locations =
        p.graph.locations) ∧
      ∀ (g : Graph ν) (a : ν),
        (∀ x, (g.getS a).2.get x = g.get x) ∧
          (g.getS a).2.locations = g.locations := by
  constructor
  · unfold depth_first_graph_searchS
    obtain ⟨h1, h2⟩ := dfsRunS_preserves p fuel
      [SNode.new p.initial none none 0] ∅ p.graph
    exact ⟨h1, h2⟩
  · exact fun g a => getS_preserves g a

/-- Witness for the amended C8 on the concrete mutated run: the final
graph looks identical through `get` despite the new empty entry. -/
theorem C8_amended_witness :
    ((depth_first_graph_searchS pC8 3).2.get 2 = pC8.graph.get 2 ∧
        (depth_first_graph_searchS pC8 3).2.get 1 = pC8.graph.get 1) ∧
      (depth_first_graph_searchS pC8 3).2.locations =
        pC8.graph.locations :=
  ⟨⟨(C8_search_graph_observational pC8 3).1.1 2,
      (C8_search_graph_observational pC8 3).1.1 1⟩,
    (C8_search_graph_observational pC8 3).1.2⟩

end ClaimC8

/-- Problem used by the C2 witness. -/
def pW2 : SProblem Int Int Int :=
  { initial := 0, actions := fun s => if s = 0 then [1] else [],
    result := fun _ a => a, goal_test := fun _ => false,
    path_cost := fun c _ _ _ => c + 1 }

/-- Evaluation function used by the C2 witness. -/
def fW2 : SNode Int Int Int → Int := fun n => n.path_cost

/-- The single child expanded in the C2 witness. -/
def cW2 : SNode Int Int Int := SNode.child_node pW2 (rootNode pW2) 1

/-- Witness for C2: at the first loop boundary of a one-edge problem the
fresh child is enqueued at the frontier's tail. -/
theorem C2_witness :
    (popMin (memoize fW2) ([rootNode pW2], (∅ : Finset Int)).1 =
        some (rootNode pW2, []) ∧
      SNode.expand pW2 (rootNode pW2) = [] ++ cW2 :: [] ∧
      cW2.state ∉ insert (rootNode pW2).state (∅ : Finset Int)) ∧
      bestHandleChild (memoize fW2)
          (insert (rootNode pW2).state (∅ : Finset Int))
          (List.foldl (bestHandleChild (memoize fW2)
            (insert (rootNode pW2).state (∅ : Finset Int))) [] []) cW2 =
        List.foldl (bestHandleChild (memoize fW2)
          (insert (rootNode pW2).state (∅ : Finset Int))) [] [] ++ [cW2] := by
  have hpop : popMin (memoize fW2) ([rootNode pW2], (∅ : Finset Int)).1 =
      some (rootNode pW2, []) := by decide
  have hsplit : SNode.expand pW2 (rootNode pW2) = [] ++ cW2 :: [] := by
    decide
  have hnex : cW2.state ∉ insert (rootNode pW2).state (∅ : Finset Int) := by
    decide
  exact ⟨⟨hpop, hsplit, hnex⟩,
    (C2_best_first_child_policy pW2 fW2 0 ([rootNode pW2], ∅) rfl hpop
      hsplit).1 hnex (by simp)⟩

/-- Problem used by the C3 witness. -/
def pW3 : SProblem Int Int Int :=
  { initial := 0, actions := fun _ => [], result := fun _ a => a,
    goal_test := fun _ => false, path_cost := fun c _ _ _ => c + 1 }

/-- Evaluation function used by the C3 witness. -/
def fW3 : SNode Int Int Int → Int := fun n => n.path_cost

/-- The reachable-state set of `pW3`. -/
def RW3 : Finset Int := {0}

/-- Witness for C3 on a one-state problem. -/
theorem C3_witness :
    (∀ s, ReachableP pW3 s ↔ s ∈ RW3) ∧
      (∀ k cfg, iterCfg (dfsStep pW3) k ([rootNode pW3], ∅) = some cfg →
        (cfg.1.map SNode.state).Nodup) ∧
      ∀ fuel n k, (depth_first_graph_search pW3 fuel = .found n k ∨
        depth_first_graph_search pW3 fuel = .failure k) → k ≤ RW3.card := by
  have hR : ∀ s, ReachableP pW3 s ↔ s ∈ RW3 := by
    intro s
    constructor
    · rintro ⟨n, h⟩
      cases h with
      | refl =>
        simp only [RW3, Finset.mem_singleton]
        rfl
      | step ha hr hw => simp [pW3] at ha
    · intro hs
      have hs0 : s = (0 : Int) := by simpa [RW3] using hs
      rw [hs0]
      exact ⟨0, ReachN.refl 0⟩
  obtain ⟨⟨h1, h2⟩, _⟩ :=
    C3_frontier_dedup_and_explored_bound pW3 fW3 RW3 hR
  exact ⟨hR, h1, h2⟩

end PathFinding
